import Mathlib

/-!
Verification development for the access-control core of a SQL database
engine (hierarchical privilege tree with partial revokes, privilege
keyword registry, and a cached per-session access resolver).

The definitions below are shallow embeddings of:
  - src/dbms/src/ACL/AllowedDatabases.cpp      (namespace ACL)
  - src/dbms/src/Access/AccessFlags.h          (namespace Flags)
  - src/dbms/src/Access/AccessRightsContextFactory.cpp and
    src/dbms/src/Access/AccessRightsContext.h  (namespace Resolver)

Machine integers (the 6-bit / 64-bit access masks) are modelled as Nat;
the bitwise operation `a & ~b` is modelled width-independently as
`a ^^^ (a &&& b)`, which agrees with the C++ expression on every width
because the result bits are a subset of the bits of `a`.
-/

namespace ACL

/-- `a & ~b` on bit masks (width independent: bitwise `a AND NOT b`). -/
def andc (a b : Nat) : Nat := a ^^^ (a &&& b)

/-- Access-type constants.  `AllowedDatabases.cpp` lines 15-21 imports them
from `ASTGrantQuery`; the header `ASTGrantQuery.h` defining the numeric
values is not part of the sources, so the values are modelled from the
spec ("a fixed-width bit vector", one bit per access type): USAGE is the
empty mask and the six non-trivial access types get distinct single bits. -/
def USAGE : Nat := 0

/-- Single-bit access mask for SELECT (see `USAGE` for provenance). -/
def SELECT : Nat := 1

/-- Single-bit access mask for INSERT. -/
def INSERT : Nat := 2

/-- Single-bit access mask for DELETE. -/
def DELETE : Nat := 4

/-- Single-bit access mask for ALTER. -/
def ALTER : Nat := 8

/-- Single-bit access mask for CREATE. -/
def CREATE : Nat := 16

/-- Single-bit access mask for DROP. -/
def DROP : Nat := 32

/-- `AllowedDatabases.cpp` line 23: `COLUMN_LEVEL = SELECT`. -/
def COLUMN_LEVEL : Nat := SELECT

/-- Line 24: `TABLE_LEVEL = COLUMN_LEVEL | INSERT | DELETE | ALTER | DROP`. -/
def TABLE_LEVEL : Nat := COLUMN_LEVEL ||| INSERT ||| DELETE ||| ALTER ||| DROP

/-- Line 25: `DATABASE_LEVEL = TABLE_LEVEL | CREATE`. -/
def DATABASE_LEVEL : Nat := TABLE_LEVEL ||| CREATE

/-- `AllowedDatabases::Node` (the header `AllowedDatabases.h` declares the
fields; the operations in the .cpp use `access`, `grants` and the ordered
children map `std::map<String, Node>`).  The children map is modelled as
an ordered association list; `none` models a null `children` pointer and
`some []` models an allocated but empty map (the two are distinguished by
`Node::operator ==` and by `eraseOrIncrement`, which tests the pointer).
The non-owning `parent` back-pointer is modelled by passing the parent's
`access` value explicitly to the operations that consult it. -/
inductive Node : Type where
  | mk (access : Nat) (grants : Nat) (children : Option (List (String × Node)))
deriving Repr

/-- Field accessor for `access`. -/
def Node.access : Node → Nat
  | .mk a _ _ => a

/-- Field accessor for `grants`. -/
def Node.grants : Node → Nat
  | .mk _ g _ => g

/-- Field accessor for `children`. -/
def Node.children : Node → Option (List (String × Node))
  | .mk _ _ cs => cs

/-- A freshly value-initialized `Node` (all masks 0, null children). -/
def Node.empty : Node := .mk 0 0 none

/-- First entry of an association list with the given key
(`std::map::find`; the map's keys are unique). -/
def lookupList (l : List (String × Node)) (name : String) : Option Node :=
  match l with
  | [] => none
  | (k, c) :: rest => if k = name then some c else lookupList rest name

/-- `Node::find` (AllowedDatabases.cpp lines 62-81): null children map or
missing key give `none`. -/
def Node.find (n : Node) (name : String) : Option Node :=
  match n.children with
  | none => none
  | some l => lookupList l name

/-- Key-ordered insertion, as `std::map::try_emplace` keeps the map
ordered by `operator <` on the key strings.  Only called when the key is
absent. -/
def insertSorted (name : String) (v : Node) : List (String × Node) → List (String × Node)
  | [] => [(name, v)]
  | (k, c) :: rest =>
      if name < k then (name, v) :: (k, c) :: rest
      else (k, c) :: insertSorted name v rest

/-- `Node::getIterator` (lines 84-103): look the child up, allocating the
children map and/or inserting a fresh child if needed; a freshly created
child inherits the parent's current `access`.  Returns the child together
with the resulting children map (which is always allocated afterwards). -/
def ensureGet (a : Nat) (name : String) :
    Option (List (String × Node)) → Node × List (String × Node)
  | none => (.mk a 0 none, [(name, .mk a 0 none)])
  | some l =>
      match lookupList l name with
      | some c => (c, l)
      | none => (.mk a 0 none, insertSorted name (.mk a 0 none) l)

/-- The erase test of `Node::eraseOrIncrement` (lines 351-359): the child
is kept unless it has a null children pointer, empty grants, and `access`
equal to its parent's (`pa`). -/
def keep (pa : Nat) (c : Node) : Bool :=
  !(c.children.isNone && c.grants == 0 && pa == c.access)

/-- Apply the `eraseOrIncrement` test to every entry of a children map
against the parent access `pa` (the iteration pattern of `addAccess`,
`removeAccess`, `merge` and `addAccessRecalcGrants`). -/
def filterKeep (pa : Nat) (l : List (String × Node)) : List (String × Node) :=
  l.filter (fun e => keep pa e.2)

/-- Replace the entry `name` by `c'` if the `eraseOrIncrement` test keeps
it, erase it otherwise (the single-child use of `eraseOrIncrement` in the
path overloads of `grant` and `revoke`). -/
def setOrErase (pa : Nat) (name : String) (c' : Node) :
    List (String × Node) → List (String × Node)
  | [] => []
  | (k, c) :: rest =>
      if k = name then (if keep pa c' then (k, c') :: rest else rest)
      else (k, c) :: setOrErase pa name c' rest

/-- Replace the entry `name` by `c'` unconditionally (the "return false
without `eraseOrIncrement`" paths of the `grant`/`revoke` overloads,
where the child was still mutated in place by the recursive call). -/
def setEntry (name : String) (c' : Node) :
    List (String × Node) → List (String × Node)
  | [] => []
  | (k, c) :: rest =>
      if k = name then (k, c') :: rest
      else (k, c) :: setEntry name c' rest

mutual

/-- `Node::addAccess` (lines 173-187): `access |= add_access`, recurse
into every child, apply `eraseOrIncrement`, and reset the children map to
null if it became empty. -/
def Node.addAccess (add : Nat) : Node → Node
  | .mk a g none => .mk (a ||| add) g none
  | .mk a g (some l) =>
      let a' := a ||| add
      let l' := filterKeep a' (addAccessList add l)
      .mk a' g (if l'.isEmpty then none else some l')

/-- The children loop of `Node.addAccess`. -/
def addAccessList (add : Nat) : List (String × Node) → List (String × Node)
  | [] => []
  | (k, c) :: rest => (k, c.addAccess add) :: addAccessList add rest

end

mutual

/-- `Node::removeAccess` (lines 272-289): drop the grants bits from the
mask, stop if nothing remains, clear the bits from `access`, recurse into
children with `eraseOrIncrement`, resetting the map if it became empty. -/
def Node.removeAccess (rm : Nat) : Node → Node
  | n@(.mk a g cs) =>
      let rm' := andc rm g
      if rm' = 0 then n
      else
        let a' := andc a rm'
        match cs with
        | none => .mk a' g none
        | some l =>
            let l' := filterKeep a' (removeAccessList rm' l)
            .mk a' g (if l'.isEmpty then none else some l')

/-- The children loop of `Node.removeAccess`. -/
def removeAccessList (rm : Nat) : List (String × Node) → List (String × Node)
  | [] => []
  | (k, c) :: rest => (k, c.removeAccess rm) :: removeAccessList rm rest

end

/-- `Node::getPartialRevokes`.  The header `AllowedDatabases.h` is not
among the sources.  Modelled from the spec: missing is the inline body of
`getPartialRevokes()`; per the spec the partial revokes of a node are the
"access bits that must be cleared here even though an ancestor still
grants them, blocking inheritance for this subtree only" (spec 4.2, step
3 of revoke), i.e. the bits the parent's `access` has and this node's
`access` lacks.  `pa` is the parent's access (0 at the root). -/
def partialRevokesOf (pa : Nat) (n : Node) : Nat := andc pa n.access

/-- `Node::grant(AccessType)` — the terminal overload (lines 158-170).
`pa` is the parent's current access (`getParentAccess()`, 0 at the root).
Returns the updated node and the changed flag. -/
def Node.grantHere (pa add0 : Nat) (n : Node) : Node × Bool :=
  let add := andc add0 n.grants
  if add = 0 then (n, false)
  else
    let g' := n.grants ||| andc add (partialRevokesOf pa n)
    ((Node.mk n.access g' n.children).addAccess add, true)

/-- `Node::grant(AccessType, name...)` — the path overloads (lines
190-246), uniform in the number of path segments: descend via
`getIterator`, recurse, and on success apply `eraseOrIncrement` to the
child; on "unchanged" return with the (possibly freshly created, still
mutated) child left in place. -/
def Node.grant (pa add : Nat) (path : List String) (n : Node) : Node × Bool :=
  match path with
  | [] => n.grantHere pa add
  | name :: rest =>
      match n with
      | .mk a g cs =>
          let (c, l) := ensureGet a name cs
          let (c', changed) := c.grant a add rest
          if changed then (.mk a g (some (setOrErase a name c' l)), true)
          else (.mk a g (some (setEntry name c' l)), false)

/-- `Node::revoke(AccessType, bool)` — the terminal overload (lines
249-269).  `pa` is the parent's current access (`getParentAccess()`). -/
def Node.revokeHere (pa rm0 : Nat) (pr : Bool) (n : Node) : Node × Bool :=
  let rm := if pr then rm0 &&& n.access else rm0 &&& n.grants
  if rm = 0 then (n, false)
  else
    let newPartialRevokes := andc rm n.grants
    let g' := andc n.grants rm
    ((Node.mk n.access g' n.children).removeAccess
        (andc rm pa ||| newPartialRevokes), true)

/-- `Node::revoke(AccessType, name..., bool)` — the path overloads (lines
292-348), uniform in the number of path segments. -/
def Node.revoke (pa rm : Nat) (path : List String) (pr : Bool) (n : Node) : Node × Bool :=
  match path with
  | [] => n.revokeHere pa rm pr
  | name :: rest =>
      match n with
      | .mk a g cs =>
          let (c, l) := ensureGet a name cs
          let (c', changed) := c.revoke a rm rest pr
          if changed then (.mk a g (some (setOrErase a name c' l)), true)
          else (.mk a g (some (setEntry name c' l)), false)

/-- `Node::getAccess` (lines 112-155): walk the path while child nodes
exist; a missing child yields the current node's `access`.  The four
C++ overloads (0 to 3 segments) are the instances of this function at
paths of length 0 to 3. -/
def Node.getAccessPath (n : Node) : List String → Nat
  | [] => n.access
  | name :: rest =>
      match n.find name with
      | some c => c.getAccessPath rest
      | none => n.access

/-- A successful `lookupList` returns a structurally smaller node
(termination measure fact, used by the recursion in `Node.merge`). -/
def sizeOf_lookupList {l : List (String × Node)} {k : String} {c : Node}
    (h : lookupList l k = some c) : sizeOf c < sizeOf l := by
  induction l with
  | nil => simp [lookupList] at h
  | cons e rest ih =>
      obtain ⟨k1, c1⟩ := e
      by_cases hk : k1 = k
      · simp [lookupList, hk] at h
        subst h
        simp
        omega
      · simp [lookupList, hk] at h
        have := ih h
        simp
        omega

/-- A successful `Node.find` returns a structurally smaller node
(termination measure fact, used by the recursion in `Node.merge`). -/
def Node.sizeOf_find {n : Node} {k : String} {c : Node}
    (h : n.find k = some c) : sizeOf c < sizeOf n := by
  obtain ⟨a, g, cs⟩ := n
  match cs with
  | none => simp [Node.find, Node.children] at h
  | some l =>
      simp only [Node.find, Node.children] at h
      have := sizeOf_lookupList h
      simp
      omega

/-- The node-creation loop at the top of `Node::merge` (lines 364-368):
`get(name)` for every child name of `other`, in `other`'s map order;
each call may allocate this node's children map and inserts a fresh
child inheriting this node's (not yet updated) access `a`. -/
def ensureAllOpt (a : Nat) :
    List (String × Node) → Option (List (String × Node)) → Option (List (String × Node))
  | [], cs => cs
  | (k, _) :: rest, cs => ensureAllOpt a rest (some (ensureGet a k cs).2)

mutual

/-- `Node::addAccessRecalcGrants` (lines 389-404): `access |= add`,
`grants = access & ~getParentAccess()` (`pa` is the parent's updated
access), recurse into children with `eraseOrIncrement`, resetting the
children map if it became empty. -/
def Node.addAccessRecalcGrants (pa add : Nat) : Node → Node
  | .mk a _ none => .mk (a ||| add) (andc (a ||| add) pa) none
  | .mk a _ (some l) =>
      let a' := a ||| add
      let l' := filterKeep a' (addAccessRecalcGrantsList a' add l)
      .mk a' (andc a' pa) (if l'.isEmpty then none else some l')

/-- The children loop of `Node.addAccessRecalcGrants`. -/
def addAccessRecalcGrantsList (pa add : Nat) :
    List (String × Node) → List (String × Node)
  | [] => []
  | (k, c) :: rest =>
      (k, c.addAccessRecalcGrants pa add) :: addAccessRecalcGrantsList pa add rest

end

mutual

/-- `Node::merge` (lines 362-386): create nodes for every child of
`other` (inheriting the old access), then `access |= other.access` and
`grants = access & ~getParentAccess()` (`pa` is the parent's updated
access, 0 at the root), then walk the (now possibly allocated) children:
a child with a counterpart in `other` is merged recursively, one without
gets `addAccessRecalcGrants(other.access)`; each child then passes
through `eraseOrIncrement`.  Note: unlike `addAccess`, `merge` does not
reset the children map when it becomes empty. -/
def Node.merge (pa : Nat) (n other : Node) : Node :=
  match n with
  | .mk a _ cs =>
      let cs1 :=
        match other.children with
        | none => cs
        | some ocs => ensureAllOpt a ocs cs
      let a' := a ||| other.access
      match cs1 with
      | none => .mk a' (andc a' pa) none
      | some l => .mk a' (andc a' pa) (some (filterKeep a' (mergeList a' l other)))
termination_by (sizeOf other, 1, 0)
decreasing_by
  apply Prod.Lex.right
  apply Prod.Lex.left
  omega


/-- The children loop of `Node.merge`. -/
def mergeList (pa : Nat) (l : List (String × Node)) (other : Node) :
    List (String × Node) :=
  match l with
  | [] => []
  | (k, c) :: rest =>
      (k,
        match _h : other.find k with
        | some oc => Node.merge pa c oc
        | none => c.addAccessRecalcGrants pa other.access) :: mergeList pa rest other
termination_by (sizeOf other, 0, sizeOf l)
decreasing_by
  all_goals simp_wf
  all_goals
    first
      | (apply Prod.Lex.right; apply Prod.Lex.right; omega)
      | (apply Prod.Lex.left; apply Node.sizeOf_find; assumption)

end

mutual

/-- `Node::operator ==` (lines 407-416): equal masks, equal
children-pointer-nullness, and (ordered) element-wise equal children
maps. -/
def Node.beq : Node → Node → Bool
  | .mk a1 g1 cs1, .mk a2 g2 cs2 =>
      a1 == a2 && g1 == g2 &&
      match cs1, cs2 with
      | none, none => true
      | some l1, some l2 => beqList l1 l2
      | _, _ => false

/-- `std::map` equality: same size and pairwise equal (key, node) pairs
in order. -/
def beqList : List (String × Node) → List (String × Node) → Bool
  | [], [] => true
  | (k1, c1) :: r1, (k2, c2) :: r2 => k1 == k2 && Node.beq c1 c2 && beqList r1 r2
  | _, _ => false

end

/-- The `AllowedDatabases` class: a wrapper around the root `Node`
(lines 503-727).  All root-level operations pass `getParentAccess() = 0`
since the root has no parent. -/
structure AllowedDatabases : Type where
  root : Node

/-- The empty `AllowedDatabases` (a value-initialized root). -/
def AllowedDatabases.empty : AllowedDatabases := ⟨Node.empty⟩

/-- The level mask the `AllowedDatabases::grant` wrapper checks against,
by number of path segments (lines 529-566): 0 or 1 segments use
`DATABASE_LEVEL`, 2 use `TABLE_LEVEL`, 3 use `COLUMN_LEVEL`. -/
def levelMaskFor : List String → Nat
  | [] => DATABASE_LEVEL
  | [_] => DATABASE_LEVEL
  | [_, _] => TABLE_LEVEL
  | _ => COLUMN_LEVEL

/-- `AllowedDatabases::grant` (lines 529-566): if the mask has bits
beyond the level mask, throw `INVALID_GRANT` (the tree is untouched);
otherwise delegate to the root node.  The error value carries the
offending bits `access & ~LEVEL` as the exception message does. -/
def AllowedDatabases.grant (t : AllowedDatabases) (access : Nat) (path : List String) :
    Except Nat (AllowedDatabases × Bool) :=
  if andc access (levelMaskFor path) ≠ 0 then .error (andc access (levelMaskFor path))
  else
    let (r, changed) := t.root.grant 0 access path
    .ok (⟨r⟩, changed)

/-- `AllowedDatabases::revoke` (lines 569-596): no level check;
delegate to the root node.  (The 0-segment overload takes no
`partial_revokes` flag and calls the terminal `Node::revoke` with its
default `partial_revokes = false`.) -/
def AllowedDatabases.revoke (t : AllowedDatabases) (access : Nat) (path : List String)
    (pr : Bool) : AllowedDatabases × Bool :=
  let (r, changed) := t.root.revoke 0 access path pr
  (⟨r⟩, changed)

/-- `AllowedDatabases::merge` (lines 684-688). -/
def AllowedDatabases.merge (t other : AllowedDatabases) : AllowedDatabases :=
  ⟨t.root.merge 0 other.root⟩

/-- `AllowedDatabases::getAccess` overloads (declared in the header,
delegating to `Node::getAccess` on the root, as the `checkAccess`
overloads at lines 629-681 use them). -/
def AllowedDatabases.getAccess (t : AllowedDatabases) (path : List String) : Nat :=
  t.root.getAccessPath path

/-- The payload of the `NOT_ENOUGH_PRIVILEGES` exception thrown by
`AllowedDatabases::checkAccess` (lines 629-681): the message renders
`accessToString(access_denied, <path>)`, i.e. it carries the denied bit
set `access & ~getAccess(path)` and the object path. -/
structure AccessDenied : Type where
  missing : Nat
  path : List String
deriving Repr, DecidableEq

/-- `AllowedDatabases::checkAccess` (lines 599-681, uniform in the
0-to-3-segment overloads): compute `access_denied = access &
~getAccess(path)`; throw `NOT_ENOUGH_PRIVILEGES` carrying the denied
bits and the path iff `access_denied` is non-zero.  The method is
`const`; the returned first component is the (unchanged) tree. -/
def AllowedDatabases.checkAccess (t : AllowedDatabases) (access : Nat)
    (path : List String) : AllowedDatabases × Option AccessDenied :=
  let denied := andc access (t.getAccess path)
  (t, if denied = 0 then none else some ⟨denied, path⟩)

mutual

/-- Does the tree rooted here contain a redundant node, i.e. a child
that `Node::eraseOrIncrement`'s test (`keep`) would erase: no allocated
children map, empty grants, and `access` equal to its parent's?  (The
well-formedness checker for the spec's "no redundant node" invariant.) -/
def Node.hasRedundant : Node → Bool
  | .mk a _ none => (fun _ => false) a
  | .mk a _ (some l) => hasRedundantList a l

/-- List part of `Node.hasRedundant`. -/
def hasRedundantList (pa : Nat) : List (String × Node) → Bool
  | [] => false
  | (_, c) :: rest => !keep pa c || c.hasRedundant || hasRedundantList pa rest

end

mutual

/-- Does every node of this tree satisfy `grants ⊆ access`?  (The
checker for the spec's `grants ⊆ access` invariant.) -/
def Node.gaOK : Node → Bool
  | .mk a g none => g &&& a == g
  | .mk a g (some l) => (g &&& a == g) && gaOKList l

/-- List part of `Node.gaOK`. -/
def gaOKList : List (String × Node) → Bool
  | [] => true
  | (_, c) :: rest => c.gaOK && gaOKList rest

end

/-- One `AllowedDatabases` mutation: a grant, a revoke (with or without
partial revokes), or a merge of another tree. -/
inductive Op : Type where
  | grantOp (mask : Nat) (path : List String)
  | revokeOp (mask : Nat) (path : List String) (pr : Bool)
  | mergeOp (other : AllowedDatabases)

/-- Apply one mutation; a grant rejected by the level check throws
before touching the tree, leaving it unchanged. -/
def applyOp (t : AllowedDatabases) : Op → AllowedDatabases
  | .grantOp m p =>
      match t.grant m p with
      | .ok (t', _) => t'
      | .error _ => t
  | .revokeOp m p pr => (t.revoke m p pr).1
  | .mergeOp o => t.merge o

/-- Apply a sequence of mutations. -/
def applyOps (t : AllowedDatabases) : List Op → AllowedDatabases
  | [] => t
  | op :: rest => applyOps (applyOp t op) rest

/-- No entry of the list has the given key. -/
def noKey (k : String) : List (String × Node) → Bool
  | [] => true
  | (k1, _) :: rest => k1 != k && noKey k rest

mutual

/-- Do all children maps in this tree have unique keys?  (Always true of
the C++ trees, whose children maps are `std::map`s.) -/
def Node.keysOK : Node → Bool
  | .mk _ _ none => true
  | .mk _ _ (some l) => keysOKList l

/-- List part of `Node.keysOK`: every key occurs once and every child
tree has unique keys. -/
def keysOKList : List (String × Node) → Bool
  | [] => true
  | (k, c) :: rest => noKey k rest && c.keysOK && keysOKList rest

end

/-- The `grants` mask of the node at the given path (0 when the path
does not exist). -/
def Node.grantsAt (n : Node) : List String → Nat
  | [] => n.grants
  | k :: rest =>
      match n.find k with
      | some c => c.grantsAt rest
      | none => 0

/-- Does the node at the given path exist? -/
def Node.existsPath (n : Node) : List String → Bool
  | [] => true
  | k :: rest =>
      match n.find k with
      | some c => c.existsPath rest
      | none => false

/-- Structural induction principle for `Node` (the children hypothesis
is available for every entry of an allocated children map). -/
def Node.inductionOn (P : Node → Prop)
    (h : ∀ a g cs, (∀ l, cs = some l → ∀ e ∈ l, P e.2) → P (Node.mk a g cs)) :
    ∀ n, P n
  | .mk a g cs =>
      h a g cs (fun l hl e he => Node.inductionOn P h e.2)
termination_by n => sizeOf n
decreasing_by
  subst hl
  obtain ⟨k, c⟩ := e
  have hm := List.sizeOf_lt_of_mem he
  simp at hm ⊢
  omega

end ACL

namespace Flags

/-- `AccessFlags.h` line 77: `static constexpr size_t NUM_FLAGS = 64`. -/
def NUM_FLAGS : Nat := 64

/-- An `AccessFlags` value: the `std::bitset<64>` member `flags`,
modelled as a Nat whose bits beyond `NUM_FLAGS` are zero. -/
def AccessFlags := Nat

/-- `AccessFlags::isEmpty` (line 51): `flags.none()`. -/
def AccessFlags.isEmpty (f : Nat) : Bool := f == 0

/-- `AccessFlags::operator bool` (line 52): `return isEmpty();`. -/
def AccessFlags.toBool (f : Nat) : Bool := AccessFlags.isEmpty f

/-- `AccessFlags::contains` (line 53): `(flags & other.flags) == other.flags`. -/
def AccessFlags.contains (f other : Nat) : Bool := f &&& other == other

end Flags

namespace Resolver

/-- `AccessRightsContext::Params` (AccessRightsContext.h lines 31-50).
`UUID`, the `ClientInfo` enums and `Poco::Net::IPAddress` are opaque
scalars here, modelled as Nat. -/
structure Params : Type where
  user_id : Nat
  current_role_ids : List Nat
  readonly : Bool
  allow_ddl : Bool
  allow_introspection : Bool
  current_database : String
  interface : Nat
  http_method : Nat
  address : Nat
  quota_key : String
deriving Repr, DecidableEq

/-- `Params::operator ==` is declared as a friend in the header (line
44) but defined in `AccessRightsContext.cpp`, which is not among the
sources.  Modelled from the spec: missing is the body of
`operator ==(const Params &, const Params &)`; per the spec the cache is
"keyed by `Params` (exact equality of all fields, including role set and
readonly/ddl/introspection flags)", so equality is field-wise over all
ten fields. -/
def Params.equal (p q : Params) : Bool :=
  p.user_id == q.user_id &&
  p.current_role_ids == q.current_role_ids &&
  p.readonly == q.readonly &&
  p.allow_ddl == q.allow_ddl &&
  p.allow_introspection == q.allow_introspection &&
  p.current_database == q.current_database &&
  p.interface == q.interface &&
  p.http_method == q.http_method &&
  p.address == q.address &&
  p.quota_key == q.quota_key

/-- The snapshot cache TTL: `AccessRightsContextFactory.cpp` line 9,
`cache(60000 /* 1 minute */)`, in milliseconds. -/
def TTL : Nat := 60000

/-- `AccessRightsContextFactory`'s state: the TTL cache of contexts plus
a supply of fresh context identities.  A cached `AccessRightsContextPtr`
is identified by a Nat (reference identity of the shared pointer); each
entry remembers its insertion time.  Modelled from the spec: missing is
the cache container class used by the factory (only its construction
with the 60000 ms TTL is in the sources); per the spec it keeps "at most
one resolved snapshot materialized per distinct `Params` value within
the cache's time-to-live window". -/
structure Factory : Type where
  cache : List (Params × Nat × Nat)
  nextId : Nat

/-- A factory with an empty cache. -/
def Factory.empty : Factory := ⟨[], 0⟩

/-- Cache lookup at time `now`: the first entry whose `Params` key
equals `p` and whose age is below the TTL.  Modelled from the spec (see
`Factory`). -/
def cacheGet (now : Nat) (cache : List (Params × Nat × Nat)) (p : Params) : Option Nat :=
  match cache with
  | [] => none
  | (q, id, t) :: rest =>
      if Params.equal q p && now < t + TTL then some id else cacheGet now rest p

/-- `AccessRightsContextFactory::createContext(const Params &)` (lines
14-23): look the params up in the cache and return the cached context on
a hit; otherwise materialize a fresh context (a fresh identity) and add
it to the cache.  `now` makes the wall clock explicit. -/
def createContext (now : Nat) (f : Factory) (p : Params) : Factory × Nat :=
  match cacheGet now f.cache p with
  | some id => (f, id)
  | none => (⟨(p, f.nextId, now) :: f.cache, f.nextId + 1⟩, f.nextId)

/-- `AccessRightsContextFactory::createContext(user_id, settings,
current_database, client_info, ...)` (lines 25-43): build a `Params`
from the session data and delegate.  Note the constructed `Params` keeps
the default (empty) `current_role_ids`. -/
def createContextFromSession (now : Nat) (f : Factory) (user_id : Nat)
    (readonly allow_ddl allow_introspection : Bool) (current_database : String)
    (interface http_method address : Nat) (quota_key : String) : Factory × Nat :=
  createContext now f
    { user_id := user_id
      current_role_ids := []
      readonly := readonly
      allow_ddl := allow_ddl
      allow_introspection := allow_introspection
      current_database := current_database
      interface := interface
      http_method := http_method
      address := address
      quota_key := quota_key }

/-- Factory states reachable from `Factory.empty`: cached identities are
below `nextId`, and entries with different `Params` keys hold different
identities. -/
def Factory.WF (f : Factory) : Prop :=
  (∀ e ∈ f.cache, e.2.1 < f.nextId) ∧
  (∀ e1 ∈ f.cache, ∀ e2 ∈ f.cache, e1.1 ≠ e2.1 → e1.2.1 ≠ e2.2.1)

end Resolver

namespace Flags

/-- The privilege levels (`AccessFlags::Impl::Level`, lines 166-175). -/
def GLOBAL_LEVEL : Nat := 0

/-- Level 1. -/
def DATABASE_LEVEL : Nat := 1

/-- Level 2. -/
def TABLE_LEVEL : Nat := 2

/-- Level 2 (same value as `TABLE_LEVEL`). -/
def VIEW_LEVEL : Nat := 2

/-- Level 2 (same value as `TABLE_LEVEL`). -/
def DICTIONARY_LEVEL : Nat := 2

/-- Level 3. -/
def COLUMN_LEVEL : Nat := 3

/-- A node of the privilege keyword tree (`AccessFlags::Impl::Node`,
lines 200-227): a keyword, the `std::bitset<64>` flags mask, a level,
and the children.  The `aliases` list only feeds the keyword-to-flags
map and is omitted. -/
inductive PNode : Type where
  | mk : String → Nat → Nat → List PNode → PNode

/-- Field accessor for `keyword`. -/
def PNode.keyword : PNode → String
  | .mk kw _ _ _ => kw

/-- Field accessor for `flags`. -/
def PNode.flags : PNode → Nat
  | .mk _ f _ _ => f

/-- Field accessor for `level`. -/
def PNode.level : PNode → Nat
  | .mk _ _ lvl _ => lvl

/-- Field accessor for `children`. -/
def PNode.children : PNode → List PNode
  | .mk _ _ _ cs => cs

/-- The two ways a `Node` constructor call can go wrong:
`flags.set(flag_)` with `flag_ >= NUM_FLAGS` (`std::bitset::set` throws
`std::out_of_range`), or dereferencing a null (moved-from) child
pointer in the children constructor (undefined behaviour).  Each
carries the keyword of the node under construction. -/
inductive BuildError : Type where
  | flagOutOfRange : String → BuildError
  | nullChild : String → BuildError

/-- The registry builder: `makeFlagsToKeywordTree`'s local `next_flag`
counter threaded through fallible construction. -/
abbrev Builder := StateT Nat (Except BuildError)

/-- The leaf constructor `Node(keyword_, flag_, level_)` (lines
208-212), always called with `next_flag++`: `flags.set(flag_)` on a
zero bitset sets bit `flag_`, or throws when `flag_ >= NUM_FLAGS`
(`std::bitset<64>::set`). -/
def leafNode (kw : String) (lvl : Nat) : Builder PNode := do
  let flag ← get
  set (flag + 1)
  if flag < NUM_FLAGS then
    pure (PNode.mk kw (2 ^ flag) lvl [])
  else
    throw (BuildError.flagOutOfRange kw)

/-- The fold of the children constructor `Node(keyword_, children_)`
(lines 214-222): `flags |= child->flags` and
`level = max(level, child->level)` over the child pointers; a null
(moved-from) `unique_ptr` is dereferenced, which is undefined
behaviour, modelled as a construction error. -/
def parentFold (kw : String) : List (Option PNode) → Except BuildError (Nat × Nat × List PNode)
  | [] => .ok (0, GLOBAL_LEVEL, [])
  | none :: _ => .error (BuildError.nullChild kw)
  | some c :: rest => do
      let (f, lvl, ks) ← parentFold kw rest
      .ok (f ||| c.flags, max lvl c.level, c :: ks)

/-- The children constructor `Node(keyword_, children_)` / the variadic
overload (lines 214-226): build the node from the folded flags, level
and dereferenced children. -/
def parentNode (kw : String) (children : List (Option PNode)) : Builder PNode := do
  let (f, lvl, ks) ← liftM (parentFold kw children)
  pure (PNode.mk kw f lvl ks)

/-- `AccessFlags::Impl::makeFlagsToKeywordTree` (lines 246-485),
transcribed in source order.  `std::unique_ptr` move semantics:
`std::move(p)` passed to a constructor transfers ownership and nulls
`p`.  Pointer variables that are never read again after their move are
plain `let`s; the four `detach_*` pointers are read again after being
moved into the `DETACH` node (line 361) when the `TRUNCATE` node is
built from them (line 368), so they are tracked as mutable
`Option PNode` cells that are nulled by the move.  The local `show` is
renamed `shw` (a keyword here). -/
def makeFlagsToKeywordTree : Builder PNode := do
  let mut all : List PNode := []

  let shw ← leafNode "SHOW" COLUMN_LEVEL
  all := all ++ [shw]

  let select ← leafNode "SELECT" COLUMN_LEVEL
  let insert ← leafNode "INSERT" COLUMN_LEVEL
  all := all ++ [select, insert]

  let update ← leafNode "UPDATE" COLUMN_LEVEL
  let delet ← leafNode "DELETE" TABLE_LEVEL

  let add_column ← leafNode "ADD COLUMN" COLUMN_LEVEL
  let modify_column ← leafNode "MODIFY COLUMN" COLUMN_LEVEL
  let drop_column ← leafNode "DROP COLUMN" COLUMN_LEVEL
  let comment_column ← leafNode "COMMENT COLUMN" COLUMN_LEVEL
  let clear_column ← leafNode "CLEAR COLUMN" COLUMN_LEVEL
  let alter_column ← parentNode "ALTER COLUMN"
    [some add_column, some modify_column, some drop_column, some comment_column,
     some clear_column]

  let alter_order_by ← leafNode "ALTER ORDER BY" TABLE_LEVEL
  let add_index ← leafNode "ADD INDEX" TABLE_LEVEL
  let drop_index ← leafNode "DROP INDEX" TABLE_LEVEL
  let materialize_index ← leafNode "MATERIALIZE INDEX" TABLE_LEVEL
  let clear_index ← leafNode "CLEAR INDEX" TABLE_LEVEL
  let index ← parentNode "INDEX"
    [some alter_order_by, some add_index, some drop_index, some materialize_index,
     some clear_index]

  let add_constraint ← leafNode "ADD CONSTRAINT" TABLE_LEVEL
  let drop_constraint ← leafNode "DROP CONSTRAINT" TABLE_LEVEL
  let alter_constraint ← parentNode "CONSTRAINT" [some add_constraint, some drop_constraint]

  let modify_ttl ← leafNode "MODIFY TTL" TABLE_LEVEL
  let modify_setting ← leafNode "MODIFY SETTING" TABLE_LEVEL

  let attach_partition ← leafNode "ATTACH PARTITION" TABLE_LEVEL
  let detach_partition ← leafNode "DETACH PARTITION" TABLE_LEVEL
  let drop_partition ← leafNode "DROP PARTITION" TABLE_LEVEL
  let copy_partition ← leafNode "COPY PARTITION" TABLE_LEVEL
  let move_partition ← leafNode "MOVE PARTITION TO DISK" TABLE_LEVEL
  let fetch_partition ← leafNode "FETCH PARTITION" TABLE_LEVEL
  let freeze_partition ← leafNode "FREEZE PARTITION" TABLE_LEVEL
  let partition ← parentNode "PARTITION"
    [some attach_partition, some detach_partition, some drop_partition,
     some copy_partition, some move_partition, some fetch_partition,
     some freeze_partition]

  let alter_table ← parentNode "ALTER_TABLE"
    [some update, some delet, some alter_column, some index, some alter_constraint,
     some modify_ttl, some modify_setting, some partition]

  let refresh_live_view ← leafNode "REFRESH LIVE VIEW" TABLE_LEVEL
  let alter_view ← parentNode "ALTER VIEW" [some refresh_live_view]

  let alter ← parentNode "ALTER" [some alter_table, some alter_view]
  all := all ++ [alter]

  let create_database ← leafNode "CREATE DATABASE" DATABASE_LEVEL
  let create_table ← leafNode "CREATE TABLE" TABLE_LEVEL
  let create_view ← leafNode "CREATE VIEW" VIEW_LEVEL
  let create_dictionary ← leafNode "CREATE DICTIONARY" DICTIONARY_LEVEL
  let create_temporary_tables ← leafNode "CREATE TEMPORARY TABLES" GLOBAL_LEVEL
  let create ← parentNode "CREATE"
    [some create_database, some create_table, some create_view, some create_dictionary,
     some create_temporary_tables]
  all := all ++ [create]

  let drop_database ← leafNode "DROP DATABASE" DATABASE_LEVEL
  let drop_table ← leafNode "DROP TABLE" TABLE_LEVEL
  let drop_view ← leafNode "DROP VIEW" VIEW_LEVEL
  let drop_dictionary ← leafNode "DROP DICTIONARY" DICTIONARY_LEVEL
  let drop ← parentNode "DROP"
    [some drop_database, some drop_table, some drop_view, some drop_dictionary]
  all := all ++ [drop]

  let mut detach_database : Option PNode := some (← leafNode "DETACH DATABASE" DATABASE_LEVEL)
  let mut detach_table : Option PNode := some (← leafNode "DETACH TABLE" TABLE_LEVEL)
  let mut detach_view : Option PNode := some (← leafNode "DETACH VIEW" VIEW_LEVEL)
  let mut detach_dictionary : Option PNode := some (← leafNode "DETACH DICTIONARY" DICTIONARY_LEVEL)
  let detach ← parentNode "DETACH"
    [detach_database, detach_table, detach_view, detach_dictionary]
  detach_database := none
  detach_table := none
  detach_view := none
  detach_dictionary := none
  all := all ++ [detach]

  let truncate_table ← leafNode "TRUNCATE TABLE" TABLE_LEVEL
  let truncate_view ← leafNode "TRUNCATE VIEW" VIEW_LEVEL
  let truncate ← parentNode "TRUNCATE"
    [detach_database, detach_table, detach_view, detach_dictionary]
  all := all ++ [truncate]

  let optimize ← leafNode "OPTIMIZE" TABLE_LEVEL
  all := all ++ [optimize]

  let kill_query ← leafNode "KILL QUERY" GLOBAL_LEVEL
  let kill_mutation ← leafNode "KILL MUTATION" TABLE_LEVEL
  let kill ← parentNode "KILL" [some kill_query, some kill_mutation]
  all := all ++ [kill]

  let create_user ← leafNode "CREATE USER" GLOBAL_LEVEL
  all := all ++ [create_user]

  let shutdown ← leafNode "SHUTDOWN" GLOBAL_LEVEL
  let drop_cache ← leafNode "DROP CACHE" GLOBAL_LEVEL
  let reload_config ← leafNode "RELOAD CONFIG" GLOBAL_LEVEL
  let reload_dictionary ← leafNode "RELOAD DICTIONARY" GLOBAL_LEVEL
  let stop_merges ← leafNode "STOP_MERGES" TABLE_LEVEL
  let stop_ttl_merges ← leafNode "STOP TTL MERGES" TABLE_LEVEL
  let stop_fetches ← leafNode "STOP FETCHES" TABLE_LEVEL
  let stop_moves ← leafNode "STOP MOVES" TABLE_LEVEL
  let stop_distributed_sends ← leafNode "STOP DISTRIBUTED SENDS" TABLE_LEVEL
  let stop_replicated_sends ← leafNode "STOP REPLICATED SENDS" TABLE_LEVEL
  let stop_replication_queues ← leafNode "STOP REPLICATION QUEUES" TABLE_LEVEL
  let sync_replica ← leafNode "SYNC REPLICA" TABLE_LEVEL
  let restart_replica ← leafNode "RESTART REPLICA" TABLE_LEVEL
  let flush_distributed ← leafNode "FLUSH DISTRIBUTED" TABLE_LEVEL
  let flush_logs ← leafNode "FLUSH LOGS" GLOBAL_LEVEL
  let system ← parentNode "SYSTEM"
    [some shutdown, some drop_cache, some reload_config, some reload_dictionary,
     some stop_merges, some stop_ttl_merges, some stop_fetches, some stop_moves,
     some stop_distributed_sends, some stop_replicated_sends,
     some stop_replication_queues, some sync_replica, some restart_replica,
     some flush_distributed, some flush_logs]
  all := all ++ [system]

  let dict_get ← leafNode "dictGet()" DICTIONARY_LEVEL
  all := all ++ [dict_get]

  let address_to_line ← leafNode "addressToLine()" GLOBAL_LEVEL
  let address_to_symbol ← leafNode "addressToSymbol()" GLOBAL_LEVEL
  let demangle ← leafNode "demangle()" GLOBAL_LEVEL
  let introspection_functions ← parentNode "INTROSPECTION FUNCTIONS"
    [some address_to_line, some address_to_symbol, some demangle]
  let introspection ← parentNode "INTROSPECTION" [some introspection_functions]
  all := all ++ [introspection]

  let file ← leafNode "file()" GLOBAL_LEVEL
  let url ← leafNode "url()" GLOBAL_LEVEL
  let input ← leafNode "input()" GLOBAL_LEVEL
  let values ← leafNode "values()" GLOBAL_LEVEL
  let numbers ← leafNode "numbers()" GLOBAL_LEVEL
  let merge ← leafNode "merge()" DATABASE_LEVEL
  let remote ← leafNode "remote()" GLOBAL_LEVEL
  let mysql ← leafNode "mysql()" GLOBAL_LEVEL
  let odbc ← leafNode "odbc()" GLOBAL_LEVEL
  let jdbc ← leafNode "jdbc()" GLOBAL_LEVEL
  let hdfs ← leafNode "hdfs()" GLOBAL_LEVEL
  let s3 ← leafNode "s3()" GLOBAL_LEVEL
  let table_functions ← parentNode "TABLE FUNCTIONS"
    [some file, some url, some input, some values, some numbers, some merge,
     some remote, some mysql, some odbc, some jdbc, some hdfs, some s3]
  all := all ++ [table_functions]

  parentNode "ALL" (all.map some)

/-- Union of the `flags` masks of a list of nodes. -/
def orMasks : List PNode → Nat
  | [] => 0
  | c :: rest => c.flags ||| orMasks rest

mutual

/-- `AccessFlags::Impl::flagsToKeywordsRec` (lines 229-244):
`matching_flags = flags & start_node.flags`; nothing is emitted when it
is empty, the node's single keyword when it equals the node's full
mask, and otherwise the children are visited in order and their
keywords accumulated (the `keywords` out-parameter becomes the returned
list). -/
def flagsToKeywordsRec (flags : Nat) : PNode → List String
  | .mk kw fl _ cs =>
      let matching := flags &&& fl
      if matching = 0 then []
      else if matching = fl then [kw]
      else flagsToKeywordsRecList flags cs

/-- The children loop of `flagsToKeywordsRec` (lines 240-241). -/
def flagsToKeywordsRecList (flags : Nat) : List PNode → List String
  | [] => []
  | c :: rest => flagsToKeywordsRec flags c ++ flagsToKeywordsRecList flags rest

end

/-- `AccessFlags::Impl::flagsToKeywords` (lines 138-147): run the
recursion from the root and fall back to `["USAGE"]` when nothing was
emitted.  The member `flags_to_keyword_tree` the C++ walks is passed as
the `tree` parameter (its construction aborts, see
`makeFlagsToKeywordTree`). -/
def flagsToKeywords (flags : Nat) (tree : PNode) : List String :=
  let keywords := flagsToKeywordsRec flags tree
  if keywords.isEmpty then ["USAGE"] else keywords

mutual

/-- The well-formedness the spec ascribes to the keyword tree: every
leaf holds a single privilege bit (the leaf constructor sets exactly
bit `flag_`), and every parent's mask is the union of its children's
masks (the children constructor folds `flags |= child->flags`). -/
def PNode.WF : PNode → Bool
  | .mk _ fl _ [] => fl == 2 ^ Nat.log2 fl
  | .mk _ fl _ (c :: cs) => fl == orMasks (c :: cs) && pnodesWF (c :: cs)

/-- `PNode.WF` over a children list. -/
def pnodesWF : List PNode → Bool
  | [] => true
  | c :: rest => PNode.WF c && pnodesWF rest

end

mutual

/-- The nodes whose keywords `flagsToKeywordsRec` emits (same traversal,
collecting the node instead of its keyword). -/
def emittedNodes (flags : Nat) : PNode → List PNode
  | .mk kw fl lvl cs =>
      let matching := flags &&& fl
      if matching = 0 then []
      else if matching = fl then [PNode.mk kw fl lvl cs]
      else emittedList flags cs

/-- The children loop of `emittedNodes`. -/
def emittedList (flags : Nat) : List PNode → List PNode
  | [] => []
  | c :: rest => emittedNodes flags c ++ emittedList flags rest

end

/-- Structural induction principle for `PNode`. -/
def PNode.inductionOn (P : PNode → Prop)
    (h : ∀ kw fl lvl cs, (∀ c ∈ cs, P c) → P (PNode.mk kw fl lvl cs)) :
    ∀ n, P n
  | .mk kw fl lvl cs => h kw fl lvl cs (fun c hc => PNode.inductionOn P h c)
termination_by n => sizeOf n
decreasing_by
  have hm := List.sizeOf_lt_of_mem hc
  simp
  omega

end Flags

/-!
## Helper lemmas
-/

namespace Resolver

/-- `Params.equal` is exact structural equality of all ten fields. -/
theorem Params.equal_iff (p q : Params) : Params.equal p q = true ↔ p = q := by
  cases p
  cases q
  simp [Params.equal, and_assoc]

/-- A cache hit comes from an entry of the cache with the looked-up key. -/
theorem cacheGet_mem {now : Nat} {l : List (Params × Nat × Nat)} {p : Params} {id : Nat}
    (h : cacheGet now l p = some id) : ∃ e ∈ l, e.1 = p ∧ e.2.1 = id := by
  induction l with
  | nil => simp [cacheGet] at h
  | cons e rest ih =>
      obtain ⟨q, i, t⟩ := e
      by_cases hq : Params.equal q p && decide (now < t + TTL)
      · simp only [cacheGet, hq, if_true] at h
        refine ⟨(q, i, t), by simp, ?_, ?_⟩
        · exact (Params.equal_iff q p).1 (by simpa using (Bool.and_elim_left hq))
        · simpa using h
      · simp only [cacheGet, hq, if_false] at h
        obtain ⟨e, he, h1, h2⟩ := ih h
        exact ⟨e, by simp [he], h1, h2⟩

end Resolver

namespace ACL

/-- Bits of `andc`. -/
theorem testBit_andc (a b : Nat) (i : Nat) :
    (andc a b).testBit i = (a.testBit i && !(b.testBit i)) := by
  simp only [andc, Nat.testBit_xor, Nat.testBit_and]
  cases a.testBit i <;> cases b.testBit i <;> rfl

/-- `a & ~a = 0`. -/
theorem andc_self (a : Nat) : andc a a = 0 := by
  simp [andc]

/-- `a & ~0 = a`. -/
theorem andc_zero_right (a : Nat) : andc a 0 = a := by
  simp [andc]

/-- `0 & ~b = 0`. -/
theorem andc_zero_left (b : Nat) : andc 0 b = 0 := by
  simp [andc]

/-- `b & (a & ~b) = 0`. -/
theorem and_andc_self (a b : Nat) : b &&& andc a b = 0 := by
  apply Nat.eq_of_testBit_eq
  intro i
  simp only [Nat.testBit_and, testBit_andc, Nat.zero_testBit]
  cases a.testBit i <;> cases b.testBit i <;> rfl

/-- `b & (a | b) = b`. -/
theorem and_or_self_right (a b : Nat) : b &&& (a ||| b) = b := by
  apply Nat.eq_of_testBit_eq
  intro i
  simp only [Nat.testBit_and, Nat.testBit_or]
  cases a.testBit i <;> cases b.testBit i <;> rfl

/-- `a & ~b = 0` iff every bit of `a` is in `b`. -/
theorem andc_eq_zero_iff (a b : Nat) : andc a b = 0 ↔ a &&& b = a := by
  constructor
  · intro h
    apply Nat.eq_of_testBit_eq
    intro i
    have hb := congrArg (Nat.testBit · i) h
    simp only [testBit_andc, Nat.zero_testBit] at hb
    simp only [Nat.testBit_and]
    cases ha : a.testBit i <;> cases hbb : b.testBit i <;> simp_all
  · intro h
    apply Nat.eq_of_testBit_eq
    intro i
    have hb := congrArg (Nat.testBit · i) h
    simp only [Nat.testBit_and] at hb
    simp only [testBit_andc, Nat.zero_testBit]
    cases ha : a.testBit i <;> cases hbb : b.testBit i <;> simp_all

/-- `a & ~(a | b) = 0`. -/
theorem andc_or_left_self (a b : Nat) : andc a (a ||| b) = 0 := by
  apply Nat.eq_of_testBit_eq
  intro i
  simp only [testBit_andc, Nat.testBit_or, Nat.zero_testBit]
  cases a.testBit i <;> cases b.testBit i <;> rfl

/-- Children lookup on an optional children map (the body of
`Node.find`). -/
theorem find_eq_childLookup (a g : Nat) (cs : Option (List (String × Node))) (k : String) :
    (Node.mk a g cs).find k = match cs with
      | none => none
      | some l => lookupList l k := by
  rfl

/-- Inserting an absent key: lookup of that key finds the new value. -/
theorem lookup_insertSorted_self (l : List (String × Node)) (k : String) (v : Node)
    (h : lookupList l k = none) : lookupList (insertSorted k v l) k = some v := by
  induction l with
  | nil => simp [insertSorted, lookupList]
  | cons e rest ih =>
      obtain ⟨k1, c1⟩ := e
      simp only [lookupList] at h
      by_cases hk : k1 = k
      · simp [hk] at h
      · simp only [hk, if_false] at h
        by_cases hlt : k < k1
        · simp [insertSorted, hlt, lookupList, hk]
        · simp [insertSorted, hlt, lookupList, hk, ih h]

/-- Inserting a key does not change lookups of other keys. -/
theorem lookup_insertSorted_ne (l : List (String × Node)) (k k' : String) (v : Node)
    (h : k' ≠ k) : lookupList (insertSorted k v l) k' = lookupList l k' := by
  have hne : ¬ k = k' := Ne.symm h
  induction l with
  | nil => simp [insertSorted, lookupList, hne]
  | cons e rest ih =>
      obtain ⟨k1, c1⟩ := e
      by_cases hlt : k < k1
      · simp [insertSorted, hlt, lookupList, hne]
      · simp [insertSorted, hlt, lookupList, ih]

/-- `setOrErase` with a kept node: lookup of the key finds the new node
(provided the key was present). -/
theorem lookup_setOrErase_self (l : List (String × Node)) (pa : Nat) (k : String)
    (c' : Node) (hk : keep pa c' = true) (h : lookupList l k ≠ none) :
    lookupList (setOrErase pa k c' l) k = some c' := by
  induction l with
  | nil => simp [lookupList] at h
  | cons e rest ih =>
      obtain ⟨k1, c1⟩ := e
      by_cases h1 : k1 = k
      · simp [setOrErase, h1, hk, lookupList]
      · simp only [lookupList, h1, if_false] at h
        simp [setOrErase, h1, lookupList, ih h]

/-- `setOrErase` does not change lookups of other keys, when the keys of
the list are unique (needed because erasing the first entry could expose
a duplicate). -/
theorem lookup_setOrErase_ne (l : List (String × Node)) (pa : Nat) (k k' : String)
    (c' : Node) (h : k' ≠ k) :
    lookupList (setOrErase pa k c' l) k' = lookupList l k' := by
  have hne : ¬ k = k' := Ne.symm h
  induction l with
  | nil => simp [setOrErase]
  | cons e rest ih =>
      obtain ⟨k1, c1⟩ := e
      by_cases h1 : k1 = k
      · subst h1
        by_cases hkeep : keep pa c'
        · simp [setOrErase, hkeep, lookupList, hne]
        · simp only [setOrErase, if_pos rfl, hkeep, Bool.false_eq_true, if_false]
          simp [lookupList, hne]
      · simp [setOrErase, h1, lookupList, ih]

/-- `setEntry` updates the looked-up key (when present). -/
theorem lookup_setEntry_self (l : List (String × Node)) (k : String) (c' : Node)
    (h : lookupList l k ≠ none) :
    lookupList (setEntry k c' l) k = some c' := by
  induction l with
  | nil => simp [lookupList] at h
  | cons e rest ih =>
      obtain ⟨k1, c1⟩ := e
      by_cases h1 : k1 = k
      · simp [setEntry, h1, lookupList]
      · simp only [lookupList, h1, if_false] at h
        simp [setEntry, h1, lookupList, ih h]

/-- `setEntry` does not change lookups of other keys. -/
theorem lookup_setEntry_ne (l : List (String × Node)) (k k' : String) (c' : Node)
    (h : k' ≠ k) : lookupList (setEntry k c' l) k' = lookupList l k' := by
  have hne : ¬ k = k' := Ne.symm h
  induction l with
  | nil => simp [setEntry]
  | cons e rest ih =>
      obtain ⟨k1, c1⟩ := e
      by_cases h1 : k1 = k
      · subst h1
        simp [setEntry, lookupList, hne]
      · simp [setEntry, h1, lookupList, ih]

/-- Re-writing an entry with the value it already holds is a no-op. -/
theorem setEntry_self (l : List (String × Node)) (k : String) (c : Node)
    (h : lookupList l k = some c) : setEntry k c l = l := by
  induction l with
  | nil => simp [setEntry]
  | cons e rest ih =>
      obtain ⟨k1, c1⟩ := e
      by_cases h1 : k1 = k
      · simp only [lookupList, h1, if_true] at h
        obtain rfl : c1 = c := by injection h
        simp [setEntry, h1]
      · simp only [lookupList, h1, if_false] at h
        simp [setEntry, h1, ih h]

/-- `ensureGet` on an absent key returns a fresh child inheriting the
parent access. -/
theorem ensureGet_absent (a : Nat) (k : String) (cs : Option (List (String × Node)))
    (h : (Node.mk a 0 cs).find k = none) :
    (ensureGet a k cs).1 = Node.mk a 0 none ∧
    lookupList (ensureGet a k cs).2 k = some (Node.mk a 0 none) ∧
    (∀ k', k' ≠ k → lookupList (ensureGet a k cs).2 k' = (Node.mk a 0 cs).find k') := by
  match cs with
  | none =>
      refine ⟨rfl, by simp [ensureGet, lookupList], ?_⟩
      intro k' hk
      have hne : ¬ k = k' := Ne.symm hk
      simp [ensureGet, lookupList, Node.find, Node.children, hne]
  | some l =>
      simp only [Node.find, Node.children] at h
      refine ⟨by simp [ensureGet, h], ?_, ?_⟩
      · simpa [ensureGet, h] using lookup_insertSorted_self l k _ h
      · intro k' hk
        simp [ensureGet, h, lookup_insertSorted_ne l k k' _ hk, Node.find, Node.children]

/-- `ensureGet` on a present key returns the existing child and list. -/
theorem ensureGet_found (a : Nat) (k : String) (cs : Option (List (String × Node)))
    (c : Node) (h : (Node.mk a 0 cs).find k = some c) :
    ∃ l, cs = some l ∧ ensureGet a k cs = (c, l) := by
  match cs with
  | none => simp [Node.find, Node.children] at h
  | some l =>
      simp only [Node.find, Node.children] at h
      exact ⟨l, rfl, by simp [ensureGet, h]⟩

end ACL

namespace ACL

/-- `b & ~(a | b) = 0`. -/
theorem andc_or_right_self (a b : Nat) : andc b (a ||| b) = 0 := by
  apply Nat.eq_of_testBit_eq
  intro i
  simp only [testBit_andc, Nat.testBit_or, Nat.zero_testBit]
  cases a.testBit i <;> cases b.testBit i <;> rfl

/-- `a & ~(a & ~b) = a & b`. -/
theorem andc_andc_self (a b : Nat) : andc a (andc a b) = a &&& b := by
  apply Nat.eq_of_testBit_eq
  intro i
  simp only [testBit_andc, Nat.testBit_and]
  cases a.testBit i <;> cases b.testBit i <;> rfl

/-- `(a & ~b) | b = a | b`. -/
theorem andc_or_cancel (a b : Nat) : andc a b ||| b = a ||| b := by
  apply Nat.eq_of_testBit_eq
  intro i
  simp only [testBit_andc, Nat.testBit_or]
  cases a.testBit i <;> cases b.testBit i <;> rfl

/-- Equation lemma: `Node.grant` at a non-empty path. -/
theorem grant_cons (pa add a g : Nat) (cs : Option (List (String × Node)))
    (name : String) (rest : List String) :
    Node.grant pa add (name :: rest) (Node.mk a g cs) =
      (if (Node.grant a add rest (ensureGet a name cs).1).2 then
        (Node.mk a g (some (setOrErase a name
          (Node.grant a add rest (ensureGet a name cs).1).1 (ensureGet a name cs).2)), true)
      else
        (Node.mk a g (some (setEntry name
          (Node.grant a add rest (ensureGet a name cs).1).1 (ensureGet a name cs).2)), false)) := by
  rw [Node.grant]

/-- Equation lemma: `Node.grant` at the empty path. -/
theorem grant_nil (pa add : Nat) (n : Node) :
    Node.grant pa add [] n = n.grantHere pa add := by
  rw [Node.grant]

/-- Equation lemma: `Node.revoke` at a non-empty path. -/
theorem revoke_cons (pa rm a g : Nat) (cs : Option (List (String × Node)))
    (name : String) (rest : List String) (pr : Bool) :
    Node.revoke pa rm (name :: rest) pr (Node.mk a g cs) =
      (if (Node.revoke a rm rest pr (ensureGet a name cs).1).2 then
        (Node.mk a g (some (setOrErase a name
          (Node.revoke a rm rest pr (ensureGet a name cs).1).1 (ensureGet a name cs).2)), true)
      else
        (Node.mk a g (some (setEntry name
          (Node.revoke a rm rest pr (ensureGet a name cs).1).1 (ensureGet a name cs).2)), false)) := by
  rw [Node.revoke]

/-- Equation lemma: `Node.revoke` at the empty path. -/
theorem revoke_nil (pa rm : Nat) (pr : Bool) (n : Node) :
    Node.revoke pa rm [] pr n = n.revokeHere pa rm pr := by
  rw [Node.revoke]

end ACL

namespace ACL

/-- Scenario step: `grant(SELECT, "db")` on a tree with no `"db"` child
creates the child `{access = A | SELECT, grants = SELECT}` and reports a
change; other children are untouched. -/
theorem scenario_grant_db (A G : Nat) (cs : Option (List (String × Node)))
    (h : (Node.mk A G cs).find "db" = none) :
    ∃ l1, Node.grant 0 SELECT ["db"] (Node.mk A G cs) =
        (Node.mk A G (some l1), true) ∧
      lookupList l1 "db" = some (Node.mk (A ||| SELECT) SELECT none) ∧
      (∀ k', k' ≠ "db" → lookupList l1 k' = (Node.mk A G cs).find k') := by
  have h0 : (Node.mk A 0 cs).find "db" = none := h
  obtain ⟨he1, he2, he3⟩ := ensureGet_absent A "db" cs h0
  have hgh : Node.grant A SELECT [] (ensureGet A "db" cs).1 =
      (Node.mk (A ||| SELECT) SELECT none, true) := by
    rw [he1, grant_nil]
    simp [Node.grantHere, Node.grants, Node.access, Node.children, andc_zero_right,
      partialRevokesOf, andc_self, SELECT, Node.addAccess]
  have hkeep : keep A (Node.mk (A ||| SELECT) SELECT none) = true := by
    simp [keep, Node.children, Node.grants, SELECT]
  refine ⟨setOrErase A "db" (Node.mk (A ||| SELECT) SELECT none) (ensureGet A "db" cs).2,
    ?_, ?_, ?_⟩
  · rw [grant_cons, hgh]
    simp
  · apply lookup_setOrErase_self _ _ _ _ hkeep
    rw [he2]
    simp
  · intro k' hk
    rw [lookup_setOrErase_ne _ _ _ _ _ hk, he3 k' hk]
    rfl

/-- Scenario step: `revoke(SELECT, "db", "t1", partial_revokes = true)`
on a tree whose `"db"` child is `{access = A | SELECT, grants = SELECT}`
creates under it a `"t1"` child recording the partial revoke
(`access = (A | SELECT) & ~SELECT`, `grants = 0`) and reports a change;
other root children are untouched. -/
theorem scenario_revoke_t1 (A G : Nat) (l1 : List (String × Node))
    (hf : lookupList l1 "db" = some (Node.mk (A ||| SELECT) SELECT none)) :
    ∃ l2, Node.revoke 0 SELECT ["db", "t1"] true (Node.mk A G (some l1)) =
        (Node.mk A G (some l2), true) ∧
      lookupList l2 "db" = some (Node.mk (A ||| SELECT) SELECT
        (some [("t1", Node.mk (andc (A ||| SELECT) SELECT) 0 none)])) ∧
      (∀ k', k' ≠ "db" → lookupList l2 k' = lookupList l1 k') := by
  have hfind : (Node.mk A 0 (some l1)).find "db" =
      some (Node.mk (A ||| SELECT) SELECT none) := by
    simpa [Node.find, Node.children] using hf
  obtain ⟨l', hl', heqE⟩ := ensureGet_found A "db" (some l1) _ hfind
  obtain rfl : l1 = l' := by injection hl'
  have hrh : Node.revoke (A ||| SELECT) SELECT [] true (Node.mk (A ||| SELECT) 0 none) =
      (Node.mk (andc (A ||| SELECT) SELECT) 0 none, true) := by
    rw [revoke_nil]
    simp only [Node.revokeHere, Node.access, Node.grants, Node.children,
      and_or_self_right, andc_zero_left, andc_zero_right, andc_or_right_self]
    simp [SELECT, Node.removeAccess, andc_zero_right, andc_or_right_self]
  have hne : (A ||| SELECT) ≠ andc (A ||| SELECT) SELECT := by
    intro hcontra
    have h1 : SELECT &&& (A ||| SELECT) = SELECT := and_or_self_right A SELECT
    have h2 : SELECT &&& andc (A ||| SELECT) SELECT = 0 := and_andc_self (A ||| SELECT) SELECT
    rw [← hcontra, h1] at h2
    simp [SELECT] at h2
  have hbeq : ((A ||| SELECT) == andc (A ||| SELECT) SELECT) = false := by
    cases hb : (A ||| SELECT) == andc (A ||| SELECT) SELECT
    · rfl
    · exact absurd (by simpa using hb) hne
  have hkeepT : keep (A ||| SELECT) (Node.mk (andc (A ||| SELECT) SELECT) 0 none) = true := by
    simp [keep, Node.children, Node.grants, Node.access, hbeq]
  have hinner : Node.revoke A SELECT ["t1"] true (Node.mk (A ||| SELECT) SELECT none) =
      (Node.mk (A ||| SELECT) SELECT
        (some [("t1", Node.mk (andc (A ||| SELECT) SELECT) 0 none)]), true) := by
    rw [revoke_cons]
    have hEt : ensureGet (A ||| SELECT) "t1" (none : Option (List (String × Node))) =
        (Node.mk (A ||| SELECT) 0 none, [("t1", Node.mk (A ||| SELECT) 0 none)]) := rfl
    rw [hEt]
    simp only [hrh]
    simp [setOrErase, hkeepT]
  have hkeepDb : keep A (Node.mk (A ||| SELECT) SELECT
      (some [("t1", Node.mk (andc (A ||| SELECT) SELECT) 0 none)])) = true := by
    simp [keep, Node.children]
  refine ⟨setOrErase A "db" (Node.mk (A ||| SELECT) SELECT
      (some [("t1", Node.mk (andc (A ||| SELECT) SELECT) 0 none)])) l1, ?_, ?_, ?_⟩
  · rw [revoke_cons, heqE]
    simp only [hinner]
    simp
  · apply lookup_setOrErase_self _ _ _ _ hkeepDb
    rw [hf]
    simp
  · intro k' hk
    rw [lookup_setOrErase_ne _ _ _ _ _ hk]

/-- Scenario step: `grant(SELECT, "db", "t1")` on the state left by the
partial revoke cancels the revoke without recording a grant: the now
redundant `"t1"` child is pruned (leaving an allocated empty children
map) and the call reports a change; other root children are untouched. -/
theorem scenario_regrant_t1 (A G : Nat) (l2 : List (String × Node))
    (hf : lookupList l2 "db" = some (Node.mk (A ||| SELECT) SELECT
      (some [("t1", Node.mk (andc (A ||| SELECT) SELECT) 0 none)]))) :
    ∃ l3, Node.grant 0 SELECT ["db", "t1"] (Node.mk A G (some l2)) =
        (Node.mk A G (some l3), true) ∧
      lookupList l3 "db" = some (Node.mk (A ||| SELECT) SELECT (some [])) ∧
      (∀ k', k' ≠ "db" → lookupList l3 k' = lookupList l2 k') := by
  have hfind : (Node.mk A 0 (some l2)).find "db" = some (Node.mk (A ||| SELECT) SELECT
      (some [("t1", Node.mk (andc (A ||| SELECT) SELECT) 0 none)])) := by
    simpa [Node.find, Node.children] using hf
  obtain ⟨l', hl', heqE⟩ := ensureGet_found A "db" (some l2) _ hfind
  obtain rfl : l2 = l' := by injection hl'
  have hgh : Node.grant (A ||| SELECT) SELECT []
      (Node.mk (andc (A ||| SELECT) SELECT) 0 none) =
      (Node.mk (A ||| SELECT) 0 none, true) := by
    rw [grant_nil]
    have hpr : partialRevokesOf (A ||| SELECT) (Node.mk (andc (A ||| SELECT) SELECT) 0 none) =
        (A ||| SELECT) &&& SELECT := by
      simp [partialRevokesOf, Node.access, andc_andc_self]
    have hsel : (A ||| SELECT) &&& SELECT = SELECT := by
      rw [Nat.and_comm]
      exact and_or_self_right A SELECT
    have hacc : andc (A ||| SELECT) SELECT ||| SELECT = A ||| SELECT := by
      rw [andc_or_cancel, Nat.or_assoc, Nat.or_self]
    simp only [Node.grantHere, Node.grants, Node.access, Node.children, andc_zero_right,
      hpr, hsel, andc_self]
    simp [SELECT, Node.addAccess]
    simpa [SELECT] using hacc
  have hkeepT : keep (A ||| SELECT) (Node.mk (A ||| SELECT) 0 none) = false := by
    simp [keep, Node.children, Node.grants, Node.access]
  have hinner : Node.grant A SELECT ["t1"] (Node.mk (A ||| SELECT) SELECT
      (some [("t1", Node.mk (andc (A ||| SELECT) SELECT) 0 none)])) =
      (Node.mk (A ||| SELECT) SELECT (some []), true) := by
    rw [grant_cons]
    have hEt : ensureGet (A ||| SELECT) "t1"
        (some [("t1", Node.mk (andc (A ||| SELECT) SELECT) 0 none)]) =
        (Node.mk (andc (A ||| SELECT) SELECT) 0 none,
          [("t1", Node.mk (andc (A ||| SELECT) SELECT) 0 none)]) := by
      simp [ensureGet, lookupList]
    rw [hEt]
    simp only [hgh]
    simp [setOrErase, hkeepT]
  have hkeepDb : keep A (Node.mk (A ||| SELECT) SELECT (some [])) = true := by
    simp [keep, Node.children]
  refine ⟨setOrErase A "db" (Node.mk (A ||| SELECT) SELECT (some [])) l2, ?_, ?_, ?_⟩
  · rw [grant_cons, heqE]
    simp only [hinner]
    simp
  · apply lookup_setOrErase_self _ _ _ _ hkeepDb
    rw [hf]
    simp
  · intro k' hk
    rw [lookup_setOrErase_ne _ _ _ _ _ hk]

end ACL

namespace ACL

/-- `g ⊆ a → g ⊆ a | c` (bit sets as `x &&& y = x`). -/
theorem subset_or_left {g a : Nat} (c : Nat) (h : g &&& a = g) : g &&& (a ||| c) = g := by
  apply Nat.eq_of_testBit_eq
  intro i
  have hb := congrArg (Nat.testBit · i) h
  simp only [Nat.testBit_and, Nat.testBit_or] at hb ⊢
  cases hg : g.testBit i <;> cases ha : a.testBit i <;> cases c.testBit i <;> simp_all

/-- `g ⊆ c → g ⊆ a | c`. -/
theorem subset_or_right {g c : Nat} (a : Nat) (h : g &&& c = g) : g &&& (a ||| c) = g := by
  apply Nat.eq_of_testBit_eq
  intro i
  have hb := congrArg (Nat.testBit · i) h
  simp only [Nat.testBit_and, Nat.testBit_or] at hb ⊢
  cases hg : g.testBit i <;> cases hc : c.testBit i <;> cases a.testBit i <;> simp_all

/-- Bitwise membership transport along `x &&& c = x`. -/
theorem subset_testBit {x c : Nat} (h : x &&& c = x) {i : Nat}
    (hx : x.testBit i = true) : c.testBit i = true := by
  have hb := congrArg (Nat.testBit · i) h
  simp only [Nat.testBit_and, hx, Bool.true_and] at hb
  exact hb

/-- `x ⊆ c → y ⊆ c → x | y ⊆ c`. -/
theorem or_subset {x y c : Nat} (h1 : x &&& c = x) (h2 : y &&& c = y) :
    (x ||| y) &&& c = x ||| y := by
  apply Nat.eq_of_testBit_eq
  intro i
  simp only [Nat.testBit_and, Nat.testBit_or]
  cases hx : x.testBit i
  · cases hy : y.testBit i
    · simp
    · simp [subset_testBit h2 hy]
  · simp [subset_testBit h1 hx]

/-- `a & ~b ⊆ a`. -/
theorem andc_subset (a b : Nat) : andc a b &&& a = andc a b := by
  apply Nat.eq_of_testBit_eq
  intro i
  simp only [Nat.testBit_and, testBit_andc]
  cases a.testBit i <;> cases b.testBit i <;> rfl

/-- `g ⊆ a → g ⊆ a & ~(rm & ~g)` (`removeAccess` never removes grant
bits from `access`). -/
theorem subset_andc_grants {g a : Nat} (rm : Nat) (h : g &&& a = g) :
    g &&& andc a (andc rm g) = g := by
  apply Nat.eq_of_testBit_eq
  intro i
  simp only [Nat.testBit_and, testBit_andc]
  cases hg : g.testBit i
  · simp
  · simp [subset_testBit h hg]

/-- `gaOKList` is the conjunction of `gaOK` over the entries. -/
theorem gaOKList_iff (l : List (String × Node)) :
    gaOKList l = true ↔ ∀ e ∈ l, e.2.gaOK = true := by
  induction l with
  | nil => simp [gaOKList]
  | cons e rest ih =>
      obtain ⟨k, c⟩ := e
      simp [gaOKList, ih, Bool.and_eq_true]

/-- `gaOK` at a generic node. -/
theorem gaOK_mk (a g : Nat) (cs : Option (List (String × Node))) :
    Node.gaOK (Node.mk a g cs) = true ↔
      g &&& a = g ∧ ∀ l, cs = some l → gaOKList l = true := by
  match cs with
  | none => simp [Node.gaOK]
  | some l => simp [Node.gaOK, Bool.and_eq_true]

/-- A found entry is a member. -/
theorem lookupList_mem {l : List (String × Node)} {k : String} {c : Node}
    (h : lookupList l k = some c) : (k, c) ∈ l := by
  induction l with
  | nil => simp [lookupList] at h
  | cons e rest ih =>
      obtain ⟨k1, c1⟩ := e
      by_cases h1 : k1 = k
      · simp only [lookupList, h1, if_true, Option.some.injEq] at h
        subst h1
        subst h
        simp
      · simp only [lookupList, h1, if_false] at h
        simp [ih h]

/-- Members of `addAccessList`. -/
theorem mem_addAccessList {add : Nat} {l : List (String × Node)} {e : String × Node}
    (h : e ∈ addAccessList add l) : ∃ e0 ∈ l, e = (e0.1, e0.2.addAccess add) := by
  induction l with
  | nil => simp [addAccessList] at h
  | cons e1 rest ih =>
      obtain ⟨k, c⟩ := e1
      simp only [addAccessList, List.mem_cons] at h
      rcases h with h | h
      · exact ⟨(k, c), by simp, h⟩
      · obtain ⟨e0, he0, heq⟩ := ih h
        exact ⟨e0, by simp [he0], heq⟩

/-- Members of `removeAccessList`. -/
theorem mem_removeAccessList {rm : Nat} {l : List (String × Node)} {e : String × Node}
    (h : e ∈ removeAccessList rm l) : ∃ e0 ∈ l, e = (e0.1, e0.2.removeAccess rm) := by
  induction l with
  | nil => simp [removeAccessList] at h
  | cons e1 rest ih =>
      obtain ⟨k, c⟩ := e1
      simp only [removeAccessList, List.mem_cons] at h
      rcases h with h | h
      · exact ⟨(k, c), by simp, h⟩
      · obtain ⟨e0, he0, heq⟩ := ih h
        exact ⟨e0, by simp [he0], heq⟩

/-- `addAccess` preserves the `grants ⊆ access` invariant. -/
theorem ga_addAccess : ∀ n : Node, n.gaOK = true →
    ∀ add : Nat, (n.addAccess add).gaOK = true := by
  refine Node.inductionOn _ ?_
  intro a g cs ih hga add
  rw [gaOK_mk] at hga
  obtain ⟨h1, h2⟩ := hga
  match cs with
  | none =>
      simp only [Node.addAccess]
      rw [gaOK_mk]
      exact ⟨subset_or_left add h1, by simp⟩
  | some l =>
      simp only [Node.addAccess]
      have hl' : gaOKList (filterKeep (a ||| add) (addAccessList add l)) = true := by
        rw [gaOKList_iff]
        intro e he
        have hmem : e ∈ addAccessList add l := (List.mem_filter.mp he).1
        obtain ⟨e0, he0, rfl⟩ := mem_addAccessList hmem
        exact ih l rfl e0 he0 ((gaOKList_iff l).1 (h2 l rfl) e0 he0) add
      by_cases hEmp : (filterKeep (a ||| add) (addAccessList add l)).isEmpty
      · simp only [hEmp, if_true]
        rw [gaOK_mk]
        exact ⟨subset_or_left add h1, by simp⟩
      · simp only [hEmp, Bool.false_eq_true, if_false]
        rw [gaOK_mk]
        exact ⟨subset_or_left add h1, fun l' hl => by injection hl with hh; rw [← hh]; exact hl'⟩

/-- `removeAccess` preserves the `grants ⊆ access` invariant. -/
theorem ga_removeAccess : ∀ n : Node, n.gaOK = true →
    ∀ rm : Nat, (n.removeAccess rm).gaOK = true := by
  refine Node.inductionOn _ ?_
  intro a g cs ih hga rm
  rw [gaOK_mk] at hga
  obtain ⟨h1, h2⟩ := hga
  by_cases h0 : andc rm g = 0
  · have heq : Node.removeAccess rm (Node.mk a g cs) = Node.mk a g cs := by
      rw [Node.removeAccess]
      simp [h0]
    rw [heq, gaOK_mk]
    exact ⟨h1, h2⟩
  · match cs with
    | none =>
        have heq : Node.removeAccess rm (Node.mk a g none) =
            Node.mk (andc a (andc rm g)) g none := by
          rw [Node.removeAccess]
          simp [h0]
        rw [heq, gaOK_mk]
        exact ⟨subset_andc_grants rm h1, by simp⟩
    | some l =>
        have heq : Node.removeAccess rm (Node.mk a g (some l)) =
            Node.mk (andc a (andc rm g)) g
              (if (filterKeep (andc a (andc rm g))
                  (removeAccessList (andc rm g) l)).isEmpty then none
                else some (filterKeep (andc a (andc rm g))
                  (removeAccessList (andc rm g) l))) := by
          rw [Node.removeAccess]
          simp [h0]
        have hl' : gaOKList (filterKeep (andc a (andc rm g))
            (removeAccessList (andc rm g) l)) = true := by
          rw [gaOKList_iff]
          intro e he
          have hmem : e ∈ removeAccessList (andc rm g) l := (List.mem_filter.mp he).1
          obtain ⟨e0, he0, rfl⟩ := mem_removeAccessList hmem
          exact ih l rfl e0 he0 ((gaOKList_iff l).1 (h2 l rfl) e0 he0) (andc rm g)
        rw [heq]
        by_cases hEmp : (filterKeep (andc a (andc rm g))
            (removeAccessList (andc rm g) l)).isEmpty
        · simp only [hEmp, if_true]
          rw [gaOK_mk]
          exact ⟨subset_andc_grants rm h1, by simp⟩
        · simp only [hEmp, Bool.false_eq_true, if_false]
          rw [gaOK_mk]
          exact ⟨subset_andc_grants rm h1,
            fun l' hl => by injection hl with hh; rw [← hh]; exact hl'⟩

end ACL

namespace ACL

/-- Transitivity of the bit-subset relation. -/
theorem subset_trans {x y z : Nat} (h1 : x &&& y = x) (h2 : y &&& z = y) :
    x &&& z = x := by
  apply Nat.eq_of_testBit_eq
  intro i
  simp only [Nat.testBit_and]
  cases hx : x.testBit i
  · simp
  · simp [subset_testBit h2 (subset_testBit h1 hx)]

/-- One-level version of `ga_addAccess`: the top node's new grants need
only fit in the new access mask (used by `grantHere`, which enlarges
`grants` before calling `addAccess`). -/
theorem ga_addAccess_top (a g' add : Nat) (cs : Option (List (String × Node)))
    (htop : g' &&& (a ||| add) = g')
    (hch : ∀ l, cs = some l → gaOKList l = true) :
    ((Node.mk a g' cs).addAccess add).gaOK = true := by
  match cs with
  | none =>
      simp only [Node.addAccess]
      rw [gaOK_mk]
      exact ⟨htop, by simp⟩
  | some l =>
      simp only [Node.addAccess]
      have hl' : gaOKList (filterKeep (a ||| add) (addAccessList add l)) = true := by
        rw [gaOKList_iff]
        intro e he
        have hmem : e ∈ addAccessList add l := (List.mem_filter.mp he).1
        obtain ⟨e0, he0, rfl⟩ := mem_addAccessList hmem
        exact ga_addAccess e0.2 ((gaOKList_iff l).1 (hch l rfl) e0 he0) add
      by_cases hEmp : (filterKeep (a ||| add) (addAccessList add l)).isEmpty
      · simp only [hEmp, if_true]
        rw [gaOK_mk]
        exact ⟨htop, by simp⟩
      · simp only [hEmp, Bool.false_eq_true, if_false]
        rw [gaOK_mk]
        exact ⟨htop, fun l' hl => by injection hl with hh; rw [← hh]; exact hl'⟩

/-- `grantHere` preserves the `grants ⊆ access` invariant. -/
theorem ga_grantHere (pa add : Nat) (n : Node) (hga : n.gaOK = true) :
    (n.grantHere pa add).1.gaOK = true := by
  obtain ⟨a, g, cs⟩ := n
  rw [gaOK_mk] at hga
  obtain ⟨h1, h2⟩ := hga
  simp only [Node.grantHere, Node.grants, Node.access, Node.children]
  by_cases h0 : andc add g = 0
  · simp only [h0, if_pos]
    rw [gaOK_mk]
    exact ⟨h1, h2⟩
  · simp only [h0, if_false]
    apply ga_addAccess_top
    · apply or_subset (subset_or_left _ h1)
      exact subset_or_right a (andc_subset _ _)
    · exact h2

/-- `revokeHere` preserves the `grants ⊆ access` invariant. -/
theorem ga_revokeHere (pa rm : Nat) (pr : Bool) (n : Node) (hga : n.gaOK = true) :
    (n.revokeHere pa rm pr).1.gaOK = true := by
  obtain ⟨a, g, cs⟩ := n
  rw [gaOK_mk] at hga
  obtain ⟨h1, h2⟩ := hga
  simp only [Node.revokeHere, Node.grants, Node.access, Node.children]
  by_cases h0 : (if pr then rm &&& a else rm &&& g) = 0
  · simp only [h0, if_pos]
    rw [gaOK_mk]
    exact ⟨h1, h2⟩
  · simp only [h0, if_false]
    apply ga_removeAccess
    rw [gaOK_mk]
    refine ⟨?_, h2⟩
    exact subset_trans (andc_subset g _) h1

/-- Members of `insertSorted`. -/
theorem mem_insertSorted {l : List (String × Node)} {k : String} {v : Node}
    {e : String × Node} (h : e ∈ insertSorted k v l) : e = (k, v) ∨ e ∈ l := by
  induction l with
  | nil => simpa [insertSorted] using h
  | cons e1 rest ih =>
      obtain ⟨k1, c1⟩ := e1
      by_cases hlt : k < k1
      · simp only [insertSorted, hlt, if_pos, List.mem_cons] at h
        rcases h with h | h | h
        · exact Or.inl h
        · exact Or.inr (by simp [h])
        · exact Or.inr (by simp [h])
      · simp only [insertSorted, hlt, if_false, List.mem_cons] at h
        rcases h with h | h
        · exact Or.inr (by simp [h])
        · rcases ih h with h' | h'
          · exact Or.inl h'
          · exact Or.inr (by simp [h'])

/-- Members of `setOrErase`. -/
theorem mem_setOrErase {l : List (String × Node)} {pa : Nat} {k : String}
    {c' : Node} {e : String × Node} (h : e ∈ setOrErase pa k c' l) :
    e = (k, c') ∨ e ∈ l := by
  induction l with
  | nil => simp [setOrErase] at h
  | cons e1 rest ih =>
      obtain ⟨k1, c1⟩ := e1
      rw [setOrErase] at h
      by_cases h1 : k1 = k
      · subst h1
        by_cases hkeep : keep pa c'
        · simp only [if_pos rfl, hkeep, if_true, List.mem_cons] at h
          rcases h with h | h
          · exact Or.inl (by simp [h])
          · exact Or.inr (by simp [h])
        · rw [if_pos rfl, if_neg hkeep] at h
          exact Or.inr (List.mem_cons_of_mem _ h)
      · rw [if_neg h1] at h
        rcases List.mem_cons.mp h with h | h
        · exact Or.inr (by simp [h])
        · rcases ih h with h' | h'
          · exact Or.inl h'
          · exact Or.inr (by simp [h'])

/-- Members of `setEntry`. -/
theorem mem_setEntry {l : List (String × Node)} {k : String} {c' : Node}
    {e : String × Node} (h : e ∈ setEntry k c' l) : e = (k, c') ∨ e ∈ l := by
  induction l with
  | nil => simp [setEntry] at h
  | cons e1 rest ih =>
      obtain ⟨k1, c1⟩ := e1
      rw [setEntry] at h
      by_cases h1 : k1 = k
      · subst h1
        rw [if_pos rfl] at h
        rcases List.mem_cons.mp h with h | h
        · exact Or.inl (by simp [h])
        · exact Or.inr (by simp [h])
      · rw [if_neg h1] at h
        rcases List.mem_cons.mp h with h | h
        · exact Or.inr (by simp [h])
        · rcases ih h with h' | h'
          · exact Or.inl h'
          · exact Or.inr (by simp [h'])

/-- The child returned by `ensureGet` satisfies the invariant. -/
theorem ga_ensureGet_fst (a : Nat) (k : String) (cs : Option (List (String × Node)))
    (hch : ∀ l, cs = some l → gaOKList l = true) :
    (ensureGet a k cs).1.gaOK = true := by
  match cs with
  | none => simp [ensureGet, Node.gaOK]
  | some l =>
      match hl : lookupList l k with
      | some c =>
          simp only [ensureGet, hl]
          exact (gaOKList_iff l).1 (hch l rfl) (k, c) (lookupList_mem hl)
      | none =>
          simp only [ensureGet, hl]
          simp [Node.gaOK]

/-- The children list returned by `ensureGet` satisfies the invariant. -/
theorem ga_ensureGet_snd (a : Nat) (k : String) (cs : Option (List (String × Node)))
    (hch : ∀ l, cs = some l → gaOKList l = true) :
    gaOKList (ensureGet a k cs).2 = true := by
  match cs with
  | none => simp [ensureGet, gaOKList, Node.gaOK]
  | some l =>
      match hl : lookupList l k with
      | some c =>
          simp only [ensureGet, hl]
          exact hch l rfl
      | none =>
          simp only [ensureGet, hl]
          rw [gaOKList_iff]
          intro e he
          rcases mem_insertSorted he with h | h
          · rw [h]
            simp [Node.gaOK]
          · exact (gaOKList_iff l).1 (hch l rfl) e h

/-- `grant` preserves the `grants ⊆ access` invariant. -/
theorem ga_grant (add : Nat) : ∀ (path : List String) (pa : Nat) (n : Node),
    n.gaOK = true → (n.grant pa add path).1.gaOK = true := by
  intro path
  induction path with
  | nil =>
      intro pa n h
      rw [grant_nil]
      exact ga_grantHere pa add n h
  | cons name rest ih =>
      intro pa n h
      obtain ⟨a, g, cs⟩ := n
      rw [gaOK_mk] at h
      obtain ⟨h1, h2⟩ := h
      rw [grant_cons]
      have hcga : (ensureGet a name cs).1.gaOK = true := ga_ensureGet_fst a name cs h2
      have hlga : gaOKList (ensureGet a name cs).2 = true := ga_ensureGet_snd a name cs h2
      have hc' := ih a (ensureGet a name cs).1 hcga
      cases hch : (Node.grant a add rest (ensureGet a name cs).1).2
      · simp only [hch, Bool.false_eq_true, if_false]
        rw [gaOK_mk]
        refine ⟨h1, fun l' hl => ?_⟩
        injection hl with hh
        rw [← hh, gaOKList_iff]
        intro e he
        rcases mem_setEntry he with hcase | hcase
        · rw [hcase]
          exact hc'
        · exact (gaOKList_iff _).1 hlga e hcase
      · simp only [hch, if_true]
        rw [gaOK_mk]
        refine ⟨h1, fun l' hl => ?_⟩
        injection hl with hh
        rw [← hh, gaOKList_iff]
        intro e he
        rcases mem_setOrErase he with hcase | hcase
        · rw [hcase]
          exact hc'
        · exact (gaOKList_iff _).1 hlga e hcase

/-- `revoke` preserves the `grants ⊆ access` invariant. -/
theorem ga_revoke (rm : Nat) (pr : Bool) : ∀ (path : List String) (pa : Nat) (n : Node),
    n.gaOK = true → (n.revoke pa rm path pr).1.gaOK = true := by
  intro path
  induction path with
  | nil =>
      intro pa n h
      rw [revoke_nil]
      exact ga_revokeHere pa rm pr n h
  | cons name rest ih =>
      intro pa n h
      obtain ⟨a, g, cs⟩ := n
      rw [gaOK_mk] at h
      obtain ⟨h1, h2⟩ := h
      rw [revoke_cons]
      have hcga : (ensureGet a name cs).1.gaOK = true := ga_ensureGet_fst a name cs h2
      have hlga : gaOKList (ensureGet a name cs).2 = true := ga_ensureGet_snd a name cs h2
      have hc' := ih a (ensureGet a name cs).1 hcga
      cases hch : (Node.revoke a rm rest pr (ensureGet a name cs).1).2
      · simp only [hch, Bool.false_eq_true, if_false]
        rw [gaOK_mk]
        refine ⟨h1, fun l' hl => ?_⟩
        injection hl with hh
        rw [← hh, gaOKList_iff]
        intro e he
        rcases mem_setEntry he with hcase | hcase
        · rw [hcase]
          exact hc'
        · exact (gaOKList_iff _).1 hlga e hcase
      · simp only [hch, if_true]
        rw [gaOK_mk]
        refine ⟨h1, fun l' hl => ?_⟩
        injection hl with hh
        rw [← hh, gaOKList_iff]
        intro e he
        rcases mem_setOrErase he with hcase | hcase
        · rw [hcase]
          exact hc'
        · exact (gaOKList_iff _).1 hlga e hcase

/-- Members of `addAccessRecalcGrantsList`. -/
theorem mem_addAccessRecalcGrantsList {pa add : Nat} {l : List (String × Node)}
    {e : String × Node} (h : e ∈ addAccessRecalcGrantsList pa add l) :
    ∃ e0 ∈ l, e = (e0.1, e0.2.addAccessRecalcGrants pa add) := by
  induction l with
  | nil => simp [addAccessRecalcGrantsList] at h
  | cons e1 rest ih =>
      obtain ⟨k, c⟩ := e1
      simp only [addAccessRecalcGrantsList, List.mem_cons] at h
      rcases h with h | h
      · exact ⟨(k, c), by simp, h⟩
      · obtain ⟨e0, he0, heq⟩ := ih h
        exact ⟨e0, by simp [he0], heq⟩

/-- `addAccessRecalcGrants` establishes the `grants ⊆ access` invariant
unconditionally (grants are recomputed from scratch). -/
theorem ga_addAccessRecalcGrants : ∀ n : Node, ∀ pa add : Nat,
    (n.addAccessRecalcGrants pa add).gaOK = true := by
  refine Node.inductionOn _ ?_
  intro a g cs ih pa add
  match cs with
  | none =>
      simp only [Node.addAccessRecalcGrants]
      rw [gaOK_mk]
      exact ⟨andc_subset _ _, by simp⟩
  | some l =>
      simp only [Node.addAccessRecalcGrants]
      have hl' : gaOKList (filterKeep (a ||| add)
          (addAccessRecalcGrantsList (a ||| add) add l)) = true := by
        rw [gaOKList_iff]
        intro e he
        have hmem := (List.mem_filter.mp he).1
        obtain ⟨e0, he0, rfl⟩ := mem_addAccessRecalcGrantsList hmem
        exact ih l rfl e0 he0 (a ||| add) add
      by_cases hEmp : (filterKeep (a ||| add)
          (addAccessRecalcGrantsList (a ||| add) add l)).isEmpty
      · simp only [hEmp, if_true]
        rw [gaOK_mk]
        exact ⟨andc_subset _ _, by simp⟩
      · simp only [hEmp, Bool.false_eq_true, if_false]
        rw [gaOK_mk]
        exact ⟨andc_subset _ _, fun l' hl => by injection hl with hh; rw [← hh]; exact hl'⟩

/-- Equation lemma: `mergeList` at a cons cell (with the dependent
match on `other.find` replaced by a plain one). -/
theorem mergeList_cons (pa : Nat) (k : String) (c : Node)
    (rest : List (String × Node)) (other : Node) :
    mergeList pa ((k, c) :: rest) other =
      (k, match other.find k with
          | some oc => Node.merge pa c oc
          | none => c.addAccessRecalcGrants pa other.access) :: mergeList pa rest other := by
  rw [mergeList]
  congr 1
  match hoc : other.find k with
  | some oc => simp
  | none => simp

/-- Members of `mergeList`. -/
theorem mem_mergeList {pa : Nat} {l : List (String × Node)} {other : Node}
    {e : String × Node} (h : e ∈ mergeList pa l other) :
    ∃ e0 ∈ l,
      (∃ oc, other.find e0.1 = some oc ∧ e = (e0.1, Node.merge pa e0.2 oc)) ∨
      (other.find e0.1 = none ∧ e = (e0.1, e0.2.addAccessRecalcGrants pa other.access)) := by
  induction l with
  | nil => simp [mergeList] at h
  | cons e1 rest ih =>
      obtain ⟨k, c⟩ := e1
      rw [mergeList_cons] at h
      rcases List.mem_cons.mp h with h | h
      · refine ⟨(k, c), by simp, ?_⟩
        match hoc : other.find k with
        | some oc =>
            left
            refine ⟨oc, rfl, ?_⟩
            rw [hoc] at h
            exact h
        | none =>
            right
            refine ⟨rfl, ?_⟩
            rw [hoc] at h
            exact h
      · obtain ⟨e0, he0, hcase⟩ := ih h
        exact ⟨e0, by simp [he0], hcase⟩

/-- `merge` establishes the `grants ⊆ access` invariant unconditionally
(grants are recomputed from scratch on every visited node). -/
theorem ga_merge : ∀ (other : Node) (pa : Nat) (n : Node),
    (Node.merge pa n other).gaOK = true := by
  refine Node.inductionOn _ ?_
  intro oa og ocs ih pa n
  obtain ⟨a, g, cs⟩ := n
  rw [Node.merge]
  have hlist : ∀ (l1 : List (String × Node)),
      gaOKList (filterKeep (a ||| (Node.mk oa og ocs).access)
        (mergeList (a ||| (Node.mk oa og ocs).access) l1 (Node.mk oa og ocs))) = true := by
    intro l1
    rw [gaOKList_iff]
    intro e he
    have hmem := (List.mem_filter.mp he).1
    obtain ⟨e0, he0, hcase⟩ := mem_mergeList hmem
    rcases hcase with ⟨oc, hoc, rfl⟩ | ⟨hoc, rfl⟩
    · have : (oc.gaOK = true → True) := fun _ => trivial
      have hocmem : (e0.1, oc) ∈ (match ocs with
          | none => ([] : List (String × Node))
          | some l => l) := by
        match hocs : ocs with
        | none => simp [Node.find, Node.children, hocs] at hoc
        | some ol =>
            simp only [Node.find, Node.children] at hoc
            exact lookupList_mem hoc
      match hocs : ocs with
      | none => simp [hocs] at hocmem
      | some ol =>
          simp only [hocs] at hocmem
          exact ih ol rfl (e0.1, oc) hocmem _ _
    · exact ga_addAccessRecalcGrants e0.2 _ _
  simp only [Node.children, Node.access] at hlist ⊢
  match ocs with
  | none =>
      dsimp only
      match cs with
      | none =>
          rw [gaOK_mk]
          exact ⟨andc_subset _ _, by simp⟩
      | some l =>
          rw [gaOK_mk]
          refine ⟨andc_subset _ _, fun l' hl => ?_⟩
          injection hl with hh
          rw [← hh]
          exact hlist l
  | some ol =>
      dsimp only
      match hens : ensureAllOpt a ol cs with
      | none =>
          dsimp only
          rw [gaOK_mk]
          exact ⟨andc_subset _ _, by simp⟩
      | some l1 =>
          dsimp only
          rw [gaOK_mk]
          refine ⟨andc_subset _ _, fun l' hl => ?_⟩
          injection hl with hh
          rw [← hh]
          exact hlist l1

end ACL

namespace ACL

/-- A node with a null children pointer answers its own `access` for
every path. -/
theorem eff_nochildren {c : Node} (h : c.children = none) (q : List String) :
    c.getAccessPath q = c.access := by
  obtain ⟨a, g, cs⟩ := c
  simp only [Node.children] at h
  subst h
  match q with
  | [] => rfl
  | k :: rest => simp [Node.getAccessPath, Node.find, Node.children]

/-- `getAccessPath` never reads `grants`. -/
theorem eff_grants_irrelevant (a g1 g2 : Nat) (cs : Option (List (String × Node)))
    (q : List String) :
    (Node.mk a g1 cs).getAccessPath q = (Node.mk a g2 cs).getAccessPath q := by
  match q with
  | [] => rfl
  | k :: rest =>
      simp only [Node.getAccessPath, Node.find, Node.children]
      match cs with
      | none => rfl
      | some l =>
          match lookupList l k with
          | none => rfl
          | some c => rfl

/-- A key absent by `noKey` is not found. -/
theorem noKey_lookup {k : String} {l : List (String × Node)} (h : noKey k l = true) :
    lookupList l k = none := by
  induction l with
  | nil => rfl
  | cons e rest ih =>
      obtain ⟨k1, c1⟩ := e
      simp only [noKey, Bool.and_eq_true, bne_iff_ne] at h
      simp [lookupList, h.1, ih h.2]

/-- An unfound key is absent by `noKey`. -/
theorem lookup_noKey {k : String} {l : List (String × Node)}
    (h : lookupList l k = none) : noKey k l = true := by
  induction l with
  | nil => rfl
  | cons e rest ih =>
      obtain ⟨k1, c1⟩ := e
      by_cases h1 : k1 = k
      · simp [lookupList, h1] at h
      · simp only [lookupList, h1, if_false] at h
        simp [noKey, h1, ih h]

/-- `noKey` is preserved by `List.filter` (in particular `filterKeep`). -/
theorem noKey_filter {k : String} {l : List (String × Node)}
    (p : String × Node → Bool) (h : noKey k l = true) :
    noKey k (l.filter p) = true := by
  induction l with
  | nil => rfl
  | cons e rest ih =>
      obtain ⟨k1, c1⟩ := e
      simp only [noKey, Bool.and_eq_true, bne_iff_ne] at h
      by_cases hp : p (k1, c1)
      · simp [List.filter, hp, noKey, h.1, ih h.2]
      · simp only [List.filter, hp, Bool.false_eq_true, if_false]
        exact ih h.2

/-- Key uniqueness is preserved by `filterKeep`. -/
theorem keysOKList_filterKeep {l : List (String × Node)} (pa : Nat)
    (h : keysOKList l = true) : keysOKList (filterKeep pa l) = true := by
  induction l with
  | nil => rfl
  | cons e rest ih =>
      obtain ⟨k1, c1⟩ := e
      simp only [keysOKList, Bool.and_eq_true] at h
      obtain ⟨⟨hn, hc⟩, hrest⟩ := h
      by_cases hp : keep pa c1
      · simp only [filterKeep, List.filter, hp]
        simp only [keysOKList, Bool.and_eq_true]
        exact ⟨⟨noKey_filter _ hn, hc⟩, ih hrest⟩
      · simp only [filterKeep, List.filter, hp, Bool.false_eq_true, if_false]
        exact ih hrest

/-- Lookup through `filterKeep` when keys are unique. -/
theorem lookup_filterKeep {l : List (String × Node)} (pa : Nat) (k : String)
    (h : keysOKList l = true) :
    lookupList (filterKeep pa l) k =
      match lookupList l k with
      | some c => if keep pa c then some c else none
      | none => none := by
  induction l with
  | nil => rfl
  | cons e rest ih =>
      obtain ⟨k1, c1⟩ := e
      simp only [keysOKList, Bool.and_eq_true] at h
      obtain ⟨⟨hn, hc⟩, hrest⟩ := h
      by_cases h1 : k1 = k
      · subst h1
        by_cases hp : keep pa c1
        · simp [filterKeep, List.filter, hp, lookupList]
        · simp only [filterKeep, List.filter, hp, Bool.false_eq_true, if_false,
            lookupList, if_pos rfl]
          have : lookupList (filterKeep pa rest) k1 = none :=
            noKey_lookup (noKey_filter _ hn)
          simp only [filterKeep] at this
          simp [this, hp]
      · by_cases hp : keep pa c1
        · simp only [filterKeep, List.filter, hp, if_pos]
          simp only [lookupList, h1, if_false]
          exact ih hrest
        · simp only [filterKeep, List.filter, hp, Bool.false_eq_true, if_false]
          simp only [lookupList, h1, if_false]
          exact ih hrest

/-- Dropping erase-tested (redundant) children does not change any
effective access, provided keys are unique. -/
theorem eff_filterKeep {l : List (String × Node)} (a g : Nat)
    (h : keysOKList l = true) (q : List String) :
    (Node.mk a g (some (filterKeep a l))).getAccessPath q =
      (Node.mk a g (some l)).getAccessPath q := by
  match q with
  | [] => rfl
  | k :: rest =>
      simp only [Node.getAccessPath, Node.find, Node.children]
      rw [lookup_filterKeep a k h]
      match hl : lookupList l k with
      | none => rfl
      | some c =>
          by_cases hp : keep a c
          · simp [hp]
          · simp only [hp, Bool.false_eq_true, if_false]
            simp only [keep, Bool.not_eq_eq_eq_not, Bool.not_true, Bool.and_eq_false_imp] at hp
            have hkeep : c.children.isNone = true ∧ c.grants == 0 ∧ (a == c.access) = true := by
              revert hp
              cases hcn : c.children.isNone <;> cases hg0 : c.grants == 0 <;>
                cases hac : (a == c.access) <;> simp [hcn, hg0, hac, keep]
            obtain ⟨h1, _, h3⟩ := hkeep
            have hacc : a = c.access := by simpa using h3
            have hnone : c.children = none := by
              cases hcc : c.children
              · rfl
              · rw [hcc] at h1
                simp at h1
            rw [eff_nochildren hnone]
            rw [hacc]
            rfl

/-- The empty-map reset (`if l.isEmpty then none else some l`) does not
change any effective access. -/
theorem eff_resetEmpty (a g : Nat) (l : List (String × Node)) (q : List String) :
    (Node.mk a g (if l.isEmpty then none else some l)).getAccessPath q =
      (Node.mk a g (some l)).getAccessPath q := by
  by_cases hEmp : l.isEmpty
  · have : l = [] := by
      cases l
      · rfl
      · simp [List.isEmpty] at hEmp
    subst this
    simp only [hEmp, if_pos]
    match q with
    | [] => rfl
    | k :: rest => rfl
  · simp [hEmp]

/-- Lookup through the `addAccess` children loop. -/
theorem lookup_addAccessList (add : Nat) (l : List (String × Node)) (k : String) :
    lookupList (addAccessList add l) k = (lookupList l k).map (Node.addAccess add) := by
  induction l with
  | nil => rfl
  | cons e rest ih =>
      obtain ⟨k1, c1⟩ := e
      by_cases h1 : k1 = k
      · simp [addAccessList, lookupList, h1]
      · simp [addAccessList, lookupList, h1, ih]

/-- `noKey` is preserved by the `addAccess` children loop. -/
theorem noKey_addAccessList {k : String} (add : Nat) {l : List (String × Node)}
    (h : noKey k l = true) : noKey k (addAccessList add l) = true := by
  induction l with
  | nil => rfl
  | cons e rest ih =>
      obtain ⟨k1, c1⟩ := e
      simp only [noKey, Bool.and_eq_true, bne_iff_ne] at h
      simp [addAccessList, noKey, h.1, ih h.2]

/-- Key uniqueness is preserved by `addAccess`. -/
theorem keysOK_addAccess : ∀ n : Node, n.keysOK = true →
    ∀ add : Nat, (n.addAccess add).keysOK = true := by
  have haux : ∀ l : List (String × Node),
      (∀ e ∈ l, e.2.keysOK = true → ∀ add, (e.2.addAccess add).keysOK = true) →
      keysOKList l = true → ∀ add, keysOKList (addAccessList add l) = true := by
    intro l
    induction l with
    | nil => intro _ _ _; rfl
    | cons e rest ih =>
        intro hall h add
        obtain ⟨k1, c1⟩ := e
        simp only [keysOKList, Bool.and_eq_true] at h
        obtain ⟨⟨hn, hc⟩, hrest⟩ := h
        simp only [addAccessList, keysOKList, Bool.and_eq_true]
        refine ⟨⟨noKey_addAccessList add hn, ?_⟩, ?_⟩
        · exact hall (k1, c1) (by simp) hc add
        · exact ih (fun e he => hall e (by simp [he])) hrest add
  refine Node.inductionOn _ ?_
  intro a g cs ih hk add
  match cs with
  | none => simp [Node.addAccess, Node.keysOK]
  | some l =>
      simp only [Node.keysOK] at hk
      simp only [Node.addAccess]
      have hl' : keysOKList (filterKeep (a ||| add) (addAccessList add l)) = true :=
        keysOKList_filterKeep _ (haux l (fun e he hek add' => ih l rfl e he hek add') hk add)
      by_cases hEmp : (filterKeep (a ||| add) (addAccessList add l)).isEmpty
      · rw [if_pos hEmp]
        rfl
      · rw [if_neg hEmp]
        simpa [Node.keysOK] using hl'

/-- A found entry of a unique-keys list has unique keys itself. -/
theorem keysOK_of_lookup : ∀ (l : List (String × Node)) (k : String) (c : Node),
    keysOKList l = true → lookupList l k = some c → c.keysOK = true := by
  intro l
  induction l with
  | nil =>
      intro k c _ hl
      simp [lookupList] at hl
  | cons e rest ih =>
      intro k c h hl
      obtain ⟨k1, c1⟩ := e
      simp only [keysOKList, Bool.and_eq_true] at h
      by_cases h1 : k1 = k
      · simp only [lookupList, h1, if_pos, Option.some.injEq] at hl
        rw [← hl]
        exact h.1.2
      · simp only [lookupList, h1, if_false] at hl
        exact ih k c h.2 hl

/-- Key uniqueness is preserved by the `addAccess` children loop. -/
theorem keysOKList_addAccessList (add : Nat) : ∀ l : List (String × Node),
    keysOKList l = true → keysOKList (addAccessList add l) = true := by
  intro l
  induction l with
  | nil =>
      intro _
      rfl
  | cons e rest ih =>
      intro h
      obtain ⟨k1, c1⟩ := e
      simp only [keysOKList, Bool.and_eq_true] at h
      simp only [addAccessList, keysOKList, Bool.and_eq_true]
      exact ⟨⟨noKey_addAccessList add h.1.1, keysOK_addAccess c1 h.1.2 add⟩, ih h.2⟩

/-- `addAccess` adds the mask to the effective access at every path. -/
theorem eff_addAccess : ∀ n : Node, n.keysOK = true →
    ∀ (add : Nat) (q : List String),
      (n.addAccess add).getAccessPath q = n.getAccessPath q ||| add := by
  refine Node.inductionOn _ ?_
  intro a g cs ih hk add q
  match cs with
  | none =>
      rw [eff_nochildren (by simp [Node.addAccess, Node.children]) q,
        eff_nochildren (by simp [Node.children]) q]
      simp [Node.addAccess, Node.access]
  | some l =>
      simp only [Node.keysOK] at hk
      simp only [Node.addAccess]
      rw [eff_resetEmpty]
      rw [eff_filterKeep _ _ (keysOKList_addAccessList add l hk)]
      match q with
      | [] => rfl
      | k :: rest =>
          simp only [Node.getAccessPath, Node.find, Node.children]
          rw [lookup_addAccessList]
          match hl : lookupList l k with
          | none => rfl
          | some c =>
              simp only [Option.map_some]
              exact ih l rfl (k, c) (lookupList_mem hl) (keysOK_of_lookup l k c hk hl) add rest

end ACL

namespace ACL

/-- `noKey` is preserved by the `addAccessRecalcGrants` children loop. -/
theorem noKey_aargList {k : String} (pa add : Nat) {l : List (String × Node)}
    (h : noKey k l = true) : noKey k (addAccessRecalcGrantsList pa add l) = true := by
  induction l with
  | nil => rfl
  | cons e rest ih =>
      obtain ⟨k1, c1⟩ := e
      simp only [noKey, Bool.and_eq_true, bne_iff_ne] at h
      simp [addAccessRecalcGrantsList, noKey, h.1, ih h.2]

/-- Key uniqueness is preserved by `addAccessRecalcGrants`. -/
theorem keysOK_aarg : ∀ n : Node, n.keysOK = true →
    ∀ pa add : Nat, (n.addAccessRecalcGrants pa add).keysOK = true := by
  have haux : ∀ l : List (String × Node),
      (∀ e ∈ l, e.2.keysOK = true → ∀ pa add, (e.2.addAccessRecalcGrants pa add).keysOK = true) →
      keysOKList l = true → ∀ pa add, keysOKList (addAccessRecalcGrantsList pa add l) = true := by
    intro l
    induction l with
    | nil =>
        intro _ _ _ _
        rfl
    | cons e rest ih =>
        intro hall h pa add
        obtain ⟨k1, c1⟩ := e
        simp only [keysOKList, Bool.and_eq_true] at h
        simp only [addAccessRecalcGrantsList, keysOKList, Bool.and_eq_true]
        refine ⟨⟨noKey_aargList pa add h.1.1, hall (k1, c1) (by simp) h.1.2 pa add⟩, ?_⟩
        exact ih (fun e he => hall e (by simp [he])) h.2 pa add
  refine Node.inductionOn _ ?_
  intro a g cs ih hk pa add
  match cs with
  | none => rfl
  | some l =>
      simp only [Node.keysOK] at hk
      simp only [Node.addAccessRecalcGrants]
      have hl' : keysOKList (filterKeep (a ||| add)
          (addAccessRecalcGrantsList (a ||| add) add l)) = true :=
        keysOKList_filterKeep _
          (haux l (fun e he hek pa' add' => ih l rfl e he hek pa' add') hk (a ||| add) add)
      by_cases hEmp : (filterKeep (a ||| add)
          (addAccessRecalcGrantsList (a ||| add) add l)).isEmpty
      · rw [if_pos hEmp]
        rfl
      · rw [if_neg hEmp]
        simpa [Node.keysOK] using hl'

/-- Key uniqueness list version for `addAccessRecalcGrantsList`. -/
theorem keysOKList_aargList (pa add : Nat) : ∀ l : List (String × Node),
    keysOKList l = true → keysOKList (addAccessRecalcGrantsList pa add l) = true := by
  intro l
  induction l with
  | nil =>
      intro _
      rfl
  | cons e rest ih =>
      intro h
      obtain ⟨k1, c1⟩ := e
      simp only [keysOKList, Bool.and_eq_true] at h
      simp only [addAccessRecalcGrantsList, keysOKList, Bool.and_eq_true]
      exact ⟨⟨noKey_aargList pa add h.1.1, keysOK_aarg c1 h.1.2 pa add⟩, ih h.2⟩

/-- Lookup through the `addAccessRecalcGrants` children loop. -/
theorem lookup_aargList (pa add : Nat) (l : List (String × Node)) (k : String) :
    lookupList (addAccessRecalcGrantsList pa add l) k =
      (lookupList l k).map (Node.addAccessRecalcGrants pa add) := by
  induction l with
  | nil => rfl
  | cons e rest ih =>
      obtain ⟨k1, c1⟩ := e
      by_cases h1 : k1 = k
      · simp [addAccessRecalcGrantsList, lookupList, h1]
      · simp [addAccessRecalcGrantsList, lookupList, h1, ih]

/-- `addAccessRecalcGrants` adds the mask to the effective access at
every path. -/
theorem eff_aarg : ∀ n : Node, n.keysOK = true →
    ∀ (pa add : Nat) (q : List String),
      (n.addAccessRecalcGrants pa add).getAccessPath q = n.getAccessPath q ||| add := by
  refine Node.inductionOn _ ?_
  intro a g cs ih hk pa add q
  match cs with
  | none =>
      rw [eff_nochildren (by simp [Node.addAccessRecalcGrants, Node.children]) q,
        eff_nochildren (by simp [Node.children]) q]
      simp [Node.addAccessRecalcGrants, Node.access]
  | some l =>
      simp only [Node.keysOK] at hk
      simp only [Node.addAccessRecalcGrants]
      rw [eff_resetEmpty]
      rw [eff_filterKeep _ _ (keysOKList_aargList (a ||| add) add l hk)]
      match q with
      | [] => rfl
      | k :: rest =>
          simp only [Node.getAccessPath, Node.find, Node.children]
          rw [lookup_aargList]
          match hl : lookupList l k with
          | none => rfl
          | some c =>
              simp only [Option.map_some]
              exact ih l rfl (k, c) (lookupList_mem hl)
                (keysOK_of_lookup l k c hk hl) (a ||| add) add rest

/-- `noKey` is preserved by inserting a different key. -/
theorem noKey_insertSorted {k1 k : String} (v : Node) {l : List (String × Node)}
    (hne : k ≠ k1) (h : noKey k1 l = true) : noKey k1 (insertSorted k v l) = true := by
  induction l with
  | nil => simp [insertSorted, noKey, bne_iff_ne, hne]
  | cons e rest ih =>
      obtain ⟨k2, c2⟩ := e
      simp only [noKey, Bool.and_eq_true, bne_iff_ne] at h
      by_cases hlt : k < k2
      · simp [insertSorted, hlt, noKey, bne_iff_ne, hne, h.1, h.2]
      · simp [insertSorted, hlt, noKey, bne_iff_ne, h.1, ih h.2]

/-- Key uniqueness is preserved by inserting an absent key with a
fresh leaf node. -/
theorem keysOKList_insertSorted {k : String} {l : List (String × Node)} (v : Node)
    (hv : v.keysOK = true) (habs : lookupList l k = none)
    (h : keysOKList l = true) : keysOKList (insertSorted k v l) = true := by
  induction l with
  | nil => simp [insertSorted, keysOKList, noKey, hv]
  | cons e rest ih =>
      obtain ⟨k1, c1⟩ := e
      by_cases h1 : k1 = k
      · simp [lookupList, h1] at habs
      · simp only [lookupList, h1, if_false] at habs
        simp only [keysOKList, Bool.and_eq_true] at h
        by_cases hlt : k < k1
        · simp only [insertSorted, hlt, if_pos, keysOKList, Bool.and_eq_true]
          refine ⟨⟨?_, hv⟩, ⟨h.1, h.2⟩⟩
          simp [noKey, bne_iff_ne, lookup_noKey habs]
          exact h1
        · simp only [insertSorted, hlt, if_false, keysOKList, Bool.and_eq_true]
          refine ⟨⟨?_, h.1.2⟩, ih habs h.2⟩
          exact noKey_insertSorted v (fun hh => h1 hh.symm) h.1.1

end ACL

namespace ACL

/-- `ensureGet` does not change lookups of other keys. -/
theorem lookup_ensureGet_ne (a : Nat) (k0 k : String)
    (cs : Option (List (String × Node))) (hne : k ≠ k0) :
    lookupList (ensureGet a k0 cs).2 k =
      match cs with
      | none => none
      | some l => lookupList l k := by
  match cs with
  | none =>
      have : ¬ k0 = k := fun hh => hne hh.symm
      simp [ensureGet, lookupList, this]
  | some l =>
      match hl : lookupList l k0 with
      | some c => simp [ensureGet, hl]
      | none =>
          simp only [ensureGet, hl]
          exact lookup_insertSorted_ne l k0 k _ hne

/-- `ensureGet` makes the key present, with the existing child or a
fresh one inheriting the parent access. -/
theorem lookup_ensureGet_self (a : Nat) (k0 : String)
    (cs : Option (List (String × Node))) :
    lookupList (ensureGet a k0 cs).2 k0 =
      match (match cs with
             | none => none
             | some l => lookupList l k0) with
      | some c => some c
      | none => some (Node.mk a 0 none) := by
  match cs with
  | none => simp [ensureGet, lookupList]
  | some l =>
      match hl : lookupList l k0 with
      | some c => simp [ensureGet, hl]
      | none =>
          simp only [ensureGet, hl]
          exact lookup_insertSorted_self l k0 _ hl

/-- Key uniqueness is preserved by `ensureGet`. -/
theorem keysOKList_ensureGet (a : Nat) (k0 : String)
    (cs : Option (List (String × Node)))
    (h : ∀ l, cs = some l → keysOKList l = true) :
    keysOKList (ensureGet a k0 cs).2 = true := by
  match cs with
  | none => simp [ensureGet, keysOKList, noKey, Node.keysOK]
  | some l =>
      match hl : lookupList l k0 with
      | some c => simpa [ensureGet, hl] using h l rfl
      | none =>
          simp only [ensureGet, hl]
          exact keysOKList_insertSorted _ rfl hl (h l rfl)

/-- A failing `ensureAllOpt` means there was nothing to do. -/
theorem ensureAllOpt_none {a : Nat} : ∀ {ol : List (String × Node)}
    {cs : Option (List (String × Node))},
    ensureAllOpt a ol cs = none → ol = [] ∧ cs = none := by
  intro ol
  induction ol with
  | nil =>
      intro cs h
      exact ⟨rfl, h⟩
  | cons e rest ih =>
      intro cs h
      obtain ⟨k0, c0⟩ := e
      rw [ensureAllOpt] at h
      obtain ⟨h1, h2⟩ := ih h
      simp at h2

/-- Lookup in the children map produced by the node-creation loop of
`merge`. -/
theorem lookup_ensureAllOpt (a : Nat) : ∀ (ol : List (String × Node))
    (cs : Option (List (String × Node))) (l1 : List (String × Node)) (k : String),
    ensureAllOpt a ol cs = some l1 →
    lookupList l1 k =
      match (match cs with
             | none => none
             | some l => lookupList l k) with
      | some c => some c
      | none =>
          match lookupList ol k with
          | some _ => some (Node.mk a 0 none)
          | none => none := by
  intro ol
  induction ol with
  | nil =>
      intro cs l1 k h
      simp only [ensureAllOpt] at h
      subst h
      match hl : lookupList l1 k with
      | some c => simp [hl]
      | none => simp [hl, lookupList]
  | cons e rest ih =>
      intro cs l1 k h
      obtain ⟨k0, c0⟩ := e
      rw [ensureAllOpt] at h
      have hstep := ih (some (ensureGet a k0 cs).2) l1 k h
      dsimp only at hstep
      by_cases hk : k = k0
      · subst hk
        rw [hstep]
        rw [lookup_ensureGet_self a k cs]
        match hcl : (match cs with | none => none | some l => lookupList l k) with
        | some c => simp
        | none => simp [lookupList]
      · rw [hstep]
        rw [lookup_ensureGet_ne a k0 k cs hk]
        match hcl : (match cs with | none => none | some l => lookupList l k) with
        | some c => simp
        | none =>
            have hne0 : ¬ k0 = k := fun hh => hk hh.symm
            simp [lookupList, hne0]

/-- Key uniqueness is preserved by the node-creation loop of `merge`. -/
theorem keysOKList_ensureAllOpt (a : Nat) : ∀ (ol : List (String × Node))
    (cs : Option (List (String × Node))) (l1 : List (String × Node)),
    (∀ l, cs = some l → keysOKList l = true) →
    ensureAllOpt a ol cs = some l1 → keysOKList l1 = true := by
  intro ol
  induction ol with
  | nil =>
      intro cs l1 h hh
      simp only [ensureAllOpt] at hh
      subst hh
      exact h l1 rfl
  | cons e rest ih =>
      intro cs l1 h hh
      obtain ⟨k0, c0⟩ := e
      rw [ensureAllOpt] at hh
      refine ih (some (ensureGet a k0 cs).2) l1 ?_ hh
      intro l hl
      injection hl with hl
      rw [← hl]
      exact keysOKList_ensureGet a k0 cs h

/-- Lookup through the `merge` children loop. -/
theorem lookup_mergeList (pa : Nat) (other : Node) :
    ∀ (l : List (String × Node)) (k : String),
    lookupList (mergeList pa l other) k =
      (lookupList l k).map (fun c =>
        match other.find k with
        | some oc => Node.merge pa c oc
        | none => c.addAccessRecalcGrants pa other.access) := by
  intro l
  induction l with
  | nil =>
      intro k
      simp [mergeList, lookupList]
  | cons e rest ih =>
      intro k
      obtain ⟨k1, c1⟩ := e
      rw [mergeList_cons]
      by_cases h1 : k1 = k
      · subst h1
        simp [lookupList]
      · simp only [lookupList, h1, if_false]
        exact ih k

/-- `noKey` is preserved by the `merge` children loop. -/
theorem noKey_mergeList {k : String} (pa : Nat) (other : Node)
    {l : List (String × Node)} (h : noKey k l = true) :
    noKey k (mergeList pa l other) = true := by
  induction l with
  | nil => simp [mergeList, noKey]
  | cons e rest ih =>
      obtain ⟨k1, c1⟩ := e
      simp only [noKey, Bool.and_eq_true, bne_iff_ne] at h
      rw [mergeList_cons]
      simp only [noKey, Bool.and_eq_true, bne_iff_ne]
      exact ⟨h.1, ih h.2⟩

/-- Key uniqueness is preserved by `merge`. -/
theorem keysOK_merge : ∀ (other : Node) (pa : Nat) (n : Node),
    n.keysOK = true → (Node.merge pa n other).keysOK = true := by
  refine Node.inductionOn _ ?_
  intro oa og ocs ih pa n hk
  obtain ⟨a, g, cs⟩ := n
  rw [Node.merge]
  simp only [Node.children, Node.access]
  have hmlist : ∀ l1 : List (String × Node), keysOKList l1 = true →
      keysOKList (mergeList (a ||| oa) l1 (Node.mk oa og ocs)) = true := by
    intro l1
    induction l1 with
    | nil =>
        intro _
        simp [mergeList, keysOKList]
    | cons e rest ihl =>
        intro h1
        obtain ⟨k1, c1⟩ := e
        simp only [keysOKList, Bool.and_eq_true] at h1
        rw [mergeList_cons]
        simp only [keysOKList, Bool.and_eq_true]
        refine ⟨⟨noKey_mergeList _ _ h1.1.1, ?_⟩, ihl h1.2⟩
        match hoc : (Node.mk oa og ocs).find k1 with
        | some oc =>
            dsimp only
            match hocs : ocs with
            | none => simp [Node.find, Node.children] at hoc
            | some ol =>
                simp only [Node.find, Node.children] at hoc
                exact ih ol rfl (k1, oc) (lookupList_mem hoc) (a ||| oa) c1 h1.1.2
        | none =>
            dsimp only
            exact keysOK_aarg c1 h1.1.2 _ _
  match ocs with
  | none =>
      dsimp only
      match cs with
      | none => rfl
      | some l =>
          simp only [Node.keysOK] at hk
          simp only [Node.keysOK]
          exact keysOKList_filterKeep _ (hmlist l hk)
  | some ol =>
      dsimp only
      match hens : ensureAllOpt a ol cs with
      | none => rfl
      | some l1 =>
          dsimp only
          simp only [Node.keysOK]
          refine keysOKList_filterKeep _ (hmlist l1 (keysOKList_ensureAllOpt a ol cs l1 ?_ hens))
          intro l hl
          subst hl
          simpa [Node.keysOK] using hk

end ACL

namespace ACL

/-- Effective access of a node with an empty (allocated) children map. -/
theorem eff_emptyList (a g : Nat) (q : List String) :
    (Node.mk a g (some [])).getAccessPath q = a := by
  match q with
  | [] => rfl
  | k :: rest => rfl

/-- The central property of `merge`: the effective access of the merged
tree at every path is the union of the two effective accesses.  (Needs
unique children keys on the self side; the C++ maps always have them.) -/
theorem eff_merge_union : ∀ (other : Node) (pa : Nat) (n : Node),
    n.keysOK = true → ∀ q : List String,
    (Node.merge pa n other).getAccessPath q =
      n.getAccessPath q ||| other.getAccessPath q := by
  refine Node.inductionOn _ ?_
  intro oa og ocs ih pa n hk q
  obtain ⟨a, g, cs⟩ := n
  rw [Node.merge]
  simp only [Node.children, Node.access]
  match ocs with
  | none =>
      have ho : ∀ q' : List String, (Node.mk oa og none).getAccessPath q' = oa :=
        fun q' => @eff_nochildren (Node.mk oa og none) rfl q'
      dsimp only
      match cs with
      | none =>
          rw [ho q, @eff_nochildren (Node.mk (a ||| oa) (andc (a ||| oa) pa) none) rfl q,
            @eff_nochildren (Node.mk a g none) rfl q]
          rfl
      | some l =>
          simp only [Node.keysOK] at hk
          rw [ho q]
          have hklm : keysOKList (mergeList (a ||| oa) l (Node.mk oa og none)) = true := by
            clear ih q
            induction l with
            | nil => simp [mergeList, keysOKList]
            | cons e rest ihl =>
                obtain ⟨k1, c1⟩ := e
                simp only [keysOKList, Bool.and_eq_true] at hk
                rw [mergeList_cons]
                simp only [keysOKList, Bool.and_eq_true]
                refine ⟨⟨noKey_mergeList _ _ hk.1.1, ?_⟩, ihl hk.2⟩
                dsimp only [Node.find, Node.children]
                exact keysOK_aarg c1 hk.1.2 _ _
          rw [eff_filterKeep _ _ hklm]
          match q with
          | [] => rfl
          | k :: rest =>
              simp only [Node.getAccessPath, Node.find, Node.children]
              rw [lookup_mergeList]
              match hl : lookupList l k with
              | none => rfl
              | some c =>
                  dsimp only [Option.map, Node.find, Node.children, Node.access]
                  rw [eff_aarg c (keysOK_of_lookup l k c hk hl) (a ||| oa) oa rest]
  | some ol =>
      dsimp only
      match hens : ensureAllOpt a ol cs with
      | none =>
          obtain ⟨rfl, rfl⟩ := ensureAllOpt_none hens
          dsimp only
          rw [@eff_nochildren (Node.mk (a ||| oa) (andc (a ||| oa) pa) none) rfl q,
            @eff_nochildren (Node.mk a g none) rfl q, eff_emptyList]
          rfl
      | some l1 =>
          dsimp only
          have hkl1 : keysOKList l1 = true := by
            refine keysOKList_ensureAllOpt a ol cs l1 ?_ hens
            intro l hl
            subst hl
            simpa [Node.keysOK] using hk
          have hklm : ∀ l2 : List (String × Node), keysOKList l2 = true →
              keysOKList (mergeList (a ||| oa) l2 (Node.mk oa og (some ol))) = true := by
            intro l2 hk2
            clear hens hkl1 q
            induction l2 with
            | nil => simp [mergeList, keysOKList]
            | cons e rest ihl =>
                obtain ⟨k1, c1⟩ := e
                simp only [keysOKList, Bool.and_eq_true] at hk2
                rw [mergeList_cons]
                simp only [keysOKList, Bool.and_eq_true]
                refine ⟨⟨noKey_mergeList _ _ hk2.1.1, ?_⟩, ihl hk2.2⟩
                match hoc : (Node.mk oa og (some ol)).find k1 with
                | some oc =>
                    dsimp only
                    exact keysOK_merge (k1, oc).2 (a ||| oa) c1 hk2.1.2
                | none =>
                    dsimp only
                    exact keysOK_aarg c1 hk2.1.2 _ _
          rw [eff_filterKeep _ _ (hklm l1 hkl1)]
          match q with
          | [] => rfl
          | k :: rest =>
              simp only [Node.getAccessPath, Node.find, Node.children]
              rw [lookup_mergeList, lookup_ensureAllOpt a ol cs l1 k hens]
              match hcl : (match cs with
                  | none => none
                  | some l => lookupList l k) with
              | some c =>
                  have hkc : c.keysOK = true := by
                    refine keysOK_of_lookup l1 k c hkl1 ?_
                    rw [lookup_ensureAllOpt a ol cs l1 k hens, hcl]
                  dsimp only [Option.map, Node.find, Node.children]
                  match hol : lookupList ol k with
                  | some oc =>
                      dsimp only
                      exact ih ol rfl (k, oc) (lookupList_mem hol) (a ||| oa) c hkc rest
                  | none =>
                      dsimp only [Node.access]
                      exact eff_aarg c hkc (a ||| oa) oa rest
              | none =>
                  dsimp only [Option.map, Node.find, Node.children, Node.access]
                  match hol : lookupList ol k with
                  | some oc =>
                      dsimp only
                      rw [ih ol rfl (k, oc) (lookupList_mem hol) (a ||| oa)
                        (Node.mk a 0 none) rfl rest,
                        @eff_nochildren (Node.mk a 0 none) rfl rest]
                      rfl
                  | none =>
                      dsimp only

end ACL

/-!
## Claim theorems
-/

/-- C1: for every access mask and every path of 0 to 3 segments,
`checkAccess` raises `NOT_ENOUGH_PRIVILEGES` iff
`requested & ~effective_access(path)` is non-zero, the raised error
carries exactly the missing bit set together with the object path, and
the tree is left unchanged. -/
theorem checkAccess_missing_bits (t : ACL.AllowedDatabases) (mask : Nat)
    (p : List String) (hp : p.length ≤ 3) :
    ((t.checkAccess mask p).1 = t) ∧
    ((t.checkAccess mask p).2 = none ↔ ACL.andc mask (t.getAccess p) = 0) ∧
    (∀ e, (t.checkAccess mask p).2 = some e →
        e.missing = ACL.andc mask (t.getAccess p) ∧ e.path = p) := by
  unfold ACL.AllowedDatabases.checkAccess
  refine ⟨rfl, ?_, ?_⟩
  · by_cases h : ACL.andc mask (t.getAccess p) = 0 <;> simp [h]
  · intro e he
    by_cases h : ACL.andc mask (t.getAccess p) = 0
    · simp [h] at he
    · simp only [h, if_false, Option.some.injEq] at he
      simp [← he]

/-- Witness for C1 at a concrete input: the empty tree, mask `SELECT`,
path `["db"]`. -/
theorem checkAccess_missing_bits_witness :
    ((ACL.AllowedDatabases.empty.checkAccess ACL.SELECT ["db"]).1 = ACL.AllowedDatabases.empty) ∧
    ((ACL.AllowedDatabases.empty.checkAccess ACL.SELECT ["db"]).2 = none ↔
      ACL.andc ACL.SELECT (ACL.AllowedDatabases.empty.getAccess ["db"]) = 0) ∧
    (∀ e, (ACL.AllowedDatabases.empty.checkAccess ACL.SELECT ["db"]).2 = some e →
        e.missing = ACL.andc ACL.SELECT (ACL.AllowedDatabases.empty.getAccess ["db"]) ∧
        e.path = ["db"]) :=
  checkAccess_missing_bits ACL.AllowedDatabases.empty ACL.SELECT ["db"] (by decide)

/-- C2: partial revoke isolation — on any tree with no node under
`"db"`, after `grant(SELECT, "db")` and
`revoke(SELECT, "db", "t1", partial_revokes = true)`, the effective
access at `["db", "t1"]` has no SELECT bit while the effective access at
any other table `["db", s]`, `s ≠ "t1"`, still contains SELECT. -/
theorem partial_revoke_isolation (n : ACL.Node) (s : String)
    (h : n.find "db" = none) (hs : s ≠ "t1") :
    ACL.SELECT &&&
      (ACL.Node.revoke 0 ACL.SELECT ["db", "t1"] true
        (ACL.Node.grant 0 ACL.SELECT ["db"] n).1).1.getAccessPath ["db", "t1"] = 0 ∧
    ACL.SELECT &&&
      (ACL.Node.revoke 0 ACL.SELECT ["db", "t1"] true
        (ACL.Node.grant 0 ACL.SELECT ["db"] n).1).1.getAccessPath ["db", s] =
      ACL.SELECT := by
  obtain ⟨A, G, cs⟩ := n
  obtain ⟨l1, hg, hg1, _⟩ := ACL.scenario_grant_db A G cs h
  obtain ⟨l2, hr, hr1, _⟩ := ACL.scenario_revoke_t1 A G l1 hg1
  rw [hg]
  simp only []
  rw [hr]
  simp only []
  have hst : ("t1" = s) = False := by
    simp [Ne.symm hs]
  constructor
  · simp only [ACL.Node.getAccessPath, ACL.Node.find, ACL.Node.children, hr1,
      ACL.lookupList, if_pos, ACL.Node.access]
    simp [ACL.and_andc_self]
  · simp only [ACL.Node.getAccessPath, ACL.Node.find, ACL.Node.children, hr1,
      ACL.lookupList, hst, if_false, ACL.Node.access]
    simp [ACL.and_or_self_right]

/-- Witness for C2 at a concrete input: the empty tree and sibling table
`"t2"`. -/
theorem partial_revoke_isolation_witness :
    ACL.SELECT &&&
      (ACL.Node.revoke 0 ACL.SELECT ["db", "t1"] true
        (ACL.Node.grant 0 ACL.SELECT ["db"] ACL.Node.empty).1).1.getAccessPath
        ["db", "t1"] = 0 ∧
    ACL.SELECT &&&
      (ACL.Node.revoke 0 ACL.SELECT ["db", "t1"] true
        (ACL.Node.grant 0 ACL.SELECT ["db"] ACL.Node.empty).1).1.getAccessPath
        ["db", "t2"] = ACL.SELECT :=
  partial_revoke_isolation ACL.Node.empty "t2" (by rfl) (by decide)

/-- C3: partial revoke restoration — continuing the isolation scenario,
a subsequent `grant(SELECT, "db", "t1")` makes the effective access at
`["db", "t1"]` include SELECT again and leaves the effective access at
every sibling `["db", s]`, `s ≠ "t1"`, exactly as it was before this
grant. -/
theorem partial_revoke_restoration (n : ACL.Node) (s : String)
    (h : n.find "db" = none) (hs : s ≠ "t1") :
    ACL.SELECT &&&
      (ACL.Node.grant 0 ACL.SELECT ["db", "t1"]
        (ACL.Node.revoke 0 ACL.SELECT ["db", "t1"] true
          (ACL.Node.grant 0 ACL.SELECT ["db"] n).1).1).1.getAccessPath ["db", "t1"] =
      ACL.SELECT ∧
    (ACL.Node.grant 0 ACL.SELECT ["db", "t1"]
        (ACL.Node.revoke 0 ACL.SELECT ["db", "t1"] true
          (ACL.Node.grant 0 ACL.SELECT ["db"] n).1).1).1.getAccessPath ["db", s] =
      (ACL.Node.revoke 0 ACL.SELECT ["db", "t1"] true
        (ACL.Node.grant 0 ACL.SELECT ["db"] n).1).1.getAccessPath ["db", s] := by
  obtain ⟨A, G, cs⟩ := n
  obtain ⟨l1, hg, hg1, _⟩ := ACL.scenario_grant_db A G cs h
  obtain ⟨l2, hr, hr1, _⟩ := ACL.scenario_revoke_t1 A G l1 hg1
  obtain ⟨l3, hreg, hreg1, _⟩ := ACL.scenario_regrant_t1 A G l2 hr1
  rw [hg]
  simp only []
  rw [hr]
  simp only []
  rw [hreg]
  simp only []
  have hst : ("t1" = s) = False := by
    simp [Ne.symm hs]
  constructor
  · simp only [ACL.Node.getAccessPath, ACL.Node.find, ACL.Node.children, hreg1,
      ACL.lookupList, ACL.Node.access]
    simp [ACL.and_or_self_right]
  · simp only [ACL.Node.getAccessPath, ACL.Node.find, ACL.Node.children, hreg1, hr1,
      ACL.lookupList, hst, if_false, ACL.Node.access]

/-- Witness for C3 at a concrete input: the empty tree and sibling table
`"t2"`. -/
theorem partial_revoke_restoration_witness :
    ACL.SELECT &&&
      (ACL.Node.grant 0 ACL.SELECT ["db", "t1"]
        (ACL.Node.revoke 0 ACL.SELECT ["db", "t1"] true
          (ACL.Node.grant 0 ACL.SELECT ["db"] ACL.Node.empty).1).1).1.getAccessPath
        ["db", "t1"] = ACL.SELECT ∧
    (ACL.Node.grant 0 ACL.SELECT ["db", "t1"]
        (ACL.Node.revoke 0 ACL.SELECT ["db", "t1"] true
          (ACL.Node.grant 0 ACL.SELECT ["db"] ACL.Node.empty).1).1).1.getAccessPath
        ["db", "t2"] =
      (ACL.Node.revoke 0 ACL.SELECT ["db", "t1"] true
        (ACL.Node.grant 0 ACL.SELECT ["db"] ACL.Node.empty).1).1.getAccessPath
        ["db", "t2"] :=
  partial_revoke_restoration ACL.Node.empty "t2" (by rfl) (by decide)

/-- C4 counterexample: the claim "every reachable tree contains no
redundant node" fails.  From the empty tree, the single operation
`revoke(SELECT, "db", partial_revokes = false)` is a no-op (nothing is
granted), but the descent has already created the child `"db"` via
`getIterator`, and the early-return path skips `eraseOrIncrement`; the
resulting tree contains a redundant node (no children, empty grants,
access equal to its parent's). -/
theorem redundant_node_reachable_counterexample :
    (ACL.applyOps ACL.AllowedDatabases.empty
        [ACL.Op.revokeOp ACL.SELECT ["db"] false]).root.hasRedundant = true ∧
    (ACL.applyOps ACL.AllowedDatabases.empty
        [ACL.Op.revokeOp ACL.SELECT ["db"] false]).root.find "db" =
      some (ACL.Node.mk 0 0 none) := by
  constructor
  · rfl
  · rfl

/-- C4 (amended): every tree reachable from the empty tree by any
sequence of grant, revoke (with or without partial revokes) and merge
operations satisfies `grants ⊆ access` at every node.  (The second half
of the original claim — that no reachable tree contains a redundant
node — is false: a grant or revoke that returns "unchanged" skips the
`eraseOrIncrement` pruning of the child it created during the descent,
see the counterexample.) -/
theorem grants_subset_access_reachable :
    ∀ ops : List ACL.Op,
      (ACL.applyOps ACL.AllowedDatabases.empty ops).root.gaOK = true := by
  have hstep : ∀ (ops : List ACL.Op) (t : ACL.AllowedDatabases),
      t.root.gaOK = true → (ACL.applyOps t ops).root.gaOK = true := by
    intro ops
    induction ops with
    | nil =>
        intro t h
        exact h
    | cons op rest ih =>
        intro t h
        rw [ACL.applyOps]
        apply ih
        match op with
        | .grantOp m p =>
            rw [ACL.applyOp]
            unfold ACL.AllowedDatabases.grant
            by_cases hv : ACL.andc m (ACL.levelMaskFor p) ≠ 0
            · rw [if_pos hv]
              exact h
            · rw [if_neg hv]
              exact ACL.ga_grant m p 0 t.root h
        | .revokeOp m p pr =>
            rw [ACL.applyOp]
            exact ACL.ga_revoke m pr p 0 t.root h
        | .mergeOp o =>
            rw [ACL.applyOp]
            exact ACL.ga_merge o.root 0 t.root
  intro ops
  exact hstep ops ACL.AllowedDatabases.empty (by rfl)

/-- C10: `AccessFlags::operator bool` returns `isEmpty()`, so the
conversion yields `true` exactly on the empty privilege set — the
opposite of the usual non-zero-is-true convention. -/
theorem accessFlags_toBool_iff_empty :
    ∀ f : Nat, Flags.AccessFlags.toBool f = true ↔ f = 0 := by
  intro f
  simp [Flags.AccessFlags.toBool, Flags.AccessFlags.isEmpty]

/-- C9: the snapshot cache is keyed by exact equality of every `Params`
field (including the enabled-role id set); a second `createContext` call
with identical `Params` within the TTL of the call that materialized the
snapshot returns the same cached snapshot instance and materializes
nothing new, while two calls whose `Params` differ in any field never
return the same snapshot instance. -/
theorem resolver_cache_params_keyed :
    (∀ p q : Resolver.Params, Resolver.Params.equal p q = true ↔ p = q) ∧
    (∀ (f : Resolver.Factory) (p : Resolver.Params) (now1 now2 : Nat),
      Resolver.cacheGet now1 f.cache p = none → now1 ≤ now2 → now2 < now1 + Resolver.TTL →
      Resolver.createContext now2 (Resolver.createContext now1 f p).1 p =
        ((Resolver.createContext now1 f p).1, (Resolver.createContext now1 f p).2)) ∧
    (∀ (f : Resolver.Factory) (p q : Resolver.Params) (now1 now2 : Nat),
      f.WF → p ≠ q →
      (Resolver.createContext now2 (Resolver.createContext now1 f p).1 q).2 ≠
        (Resolver.createContext now1 f p).2) := by
  refine ⟨Resolver.Params.equal_iff, ?_, ?_⟩
  · intro f p now1 now2 hmiss hle hlt
    simp only [Resolver.createContext, hmiss]
    have heq : Resolver.Params.equal p p = true := (Resolver.Params.equal_iff p p).2 rfl
    simp [Resolver.cacheGet, heq, hlt]
  · intro f p q now1 now2 hwf hne
    cases h1 : Resolver.cacheGet now1 f.cache p with
    | some id1 =>
        cases h2 : Resolver.cacheGet now2 f.cache q with
        | some id2 =>
            obtain ⟨e1, he1, he1p, he1id⟩ := Resolver.cacheGet_mem h1
            obtain ⟨e2, he2, he2q, he2id⟩ := Resolver.cacheGet_mem h2
            have hkey : e1.1 ≠ e2.1 := by
              rw [he1p, he2q]
              exact hne
            have hids := hwf.2 e1 he1 e2 he2 hkey
            simp [Resolver.createContext, h1, h2]
            omega
        | none =>
            obtain ⟨e1, he1, he1p, he1id⟩ := Resolver.cacheGet_mem h1
            have hlt := hwf.1 e1 he1
            simp [Resolver.createContext, h1, h2]
            omega
    | none =>
        have hq : Resolver.Params.equal p q = false := by
          by_contra hc
          have hq' : Resolver.Params.equal p q = true := by
            revert hc
            cases Resolver.Params.equal p q <;> simp
          exact hne ((Resolver.Params.equal_iff p q).1 hq')
        cases h2 : Resolver.cacheGet now2 f.cache q with
        | some id2 =>
            obtain ⟨e2, he2, he2q, he2id⟩ := Resolver.cacheGet_mem h2
            have hlt := hwf.1 e2 he2
            simp [Resolver.createContext, h1, Resolver.cacheGet, hq, h2]
            omega
        | none =>
            simp [Resolver.createContext, h1, Resolver.cacheGet, hq, h2]

/-- Witness for C9 at concrete inputs: a fresh factory, two concrete
`Params` differing only in the enabled-role id set, times 0 and 1. -/
theorem resolver_cache_params_keyed_witness :
    (Resolver.createContext 1
        (Resolver.createContext 0 Resolver.Factory.empty
          ⟨7, [1], false, false, false, "d", 0, 0, 0, "k"⟩).1
        ⟨7, [1], false, false, false, "d", 0, 0, 0, "k"⟩ =
      ((Resolver.createContext 0 Resolver.Factory.empty
          ⟨7, [1], false, false, false, "d", 0, 0, 0, "k"⟩).1,
        (Resolver.createContext 0 Resolver.Factory.empty
          ⟨7, [1], false, false, false, "d", 0, 0, 0, "k"⟩).2)) ∧
    ((Resolver.createContext 1
        (Resolver.createContext 0 Resolver.Factory.empty
          ⟨7, [1], false, false, false, "d", 0, 0, 0, "k"⟩).1
        ⟨7, [2], false, false, false, "d", 0, 0, 0, "k"⟩).2 ≠
      (Resolver.createContext 0 Resolver.Factory.empty
          ⟨7, [1], false, false, false, "d", 0, 0, 0, "k"⟩).2) :=
  ⟨resolver_cache_params_keyed.2.1 Resolver.Factory.empty
      ⟨7, [1], false, false, false, "d", 0, 0, 0, "k"⟩ 0 1 (by decide) (by decide) (by decide),
    resolver_cache_params_keyed.2.2 Resolver.Factory.empty
      ⟨7, [1], false, false, false, "d", 0, 0, 0, "k"⟩
      ⟨7, [2], false, false, false, "d", 0, 0, 0, "k"⟩ 0 1
      ⟨by simp [Resolver.Factory.empty], by simp [Resolver.Factory.empty]⟩ (by decide)⟩

/-- C5: merge commutativity — for every base tree `t` whose children maps
have unique keys (as `std::map` guarantees) and every two trees `r1`,
`r2`, merging `r1` into `t` and then `r2` yields the same effective
access mask at every path as merging `r2` first and then `r1`, even
though the interior grants bookkeeping may differ. -/
theorem merge_effective_access_commutes (pa : Nat) (t r1 r2 : ACL.Node)
    (hk : t.keysOK = true) (q : List String) :
    (ACL.Node.merge pa (ACL.Node.merge pa t r1) r2).getAccessPath q =
      (ACL.Node.merge pa (ACL.Node.merge pa t r2) r1).getAccessPath q := by
  rw [ACL.eff_merge_union r2 pa _ (ACL.keysOK_merge r1 pa t hk) q,
    ACL.eff_merge_union r1 pa t hk q,
    ACL.eff_merge_union r1 pa _ (ACL.keysOK_merge r2 pa t hk) q,
    ACL.eff_merge_union r2 pa t hk q,
    Nat.or_assoc, Nat.or_assoc,
    Nat.or_comm (r1.getAccessPath q) (r2.getAccessPath q)]

/-- Witness for C5 at concrete trees and a concrete path. -/
theorem merge_effective_access_commutes_witness :
    ACL.Node.empty.keysOK = true ∧
    (ACL.Node.merge 0 (ACL.Node.merge 0 ACL.Node.empty (ACL.Node.mk 1 1 none))
        (ACL.Node.mk 2 2 (some [("db", ACL.Node.mk 6 4 none)]))).getAccessPath ["db"] =
      (ACL.Node.merge 0 (ACL.Node.merge 0 ACL.Node.empty
        (ACL.Node.mk 2 2 (some [("db", ACL.Node.mk 6 4 none)]))) (ACL.Node.mk 1 1 none)).getAccessPath ["db"] :=
  ⟨rfl, merge_effective_access_commutes 0 ACL.Node.empty (ACL.Node.mk 1 1 none)
    (ACL.Node.mk 2 2 (some [("db", ACL.Node.mk 6 4 none)])) rfl ["db"]⟩

namespace ACL

/-- Replacing the first entry with key `k` by the node already stored
there leaves the children list unchanged. -/
theorem setEntry_lookup_self : ∀ (l : List (String × Node)) (k : String) (c : Node),
    lookupList l k = some c → setEntry k c l = l := by
  intro l
  induction l with
  | nil => intro k c h; simp [lookupList] at h
  | cons e rest ih =>
      intro k c h
      obtain ⟨k1, c1⟩ := e
      by_cases h1 : k1 = k
      · simp only [lookupList, h1, if_true, Option.some.injEq] at h
        simp [setEntry, h1, h]
      · simp only [lookupList, h1, if_false] at h
        simp [setEntry, h1, ih k c h]

end ACL

/-- C6 counterexample: `grant(bits, path)` applied twice is NOT always
the same tree as applied once.  Starting from the reachable tree built
by `grant(SELECT, [])` then `revoke(SELECT, ["db"], partial_revokes)`,
the first `grant(SELECT, ["db"])` cancels the partial revoke and
`eraseOrIncrement` prunes the now-redundant child (leaving an allocated
empty children map), while the second call re-creates the child with
`grants = SELECT`; the two results differ under the tree's own
`operator ==`. -/
theorem grant_idempotence_counterexample :
    ((ACL.Node.revoke 0 ACL.SELECT ["db"] true
        (ACL.Node.grant 0 ACL.SELECT [] ACL.Node.empty).1).1
      = ACL.Node.mk 1 1 (some [("db", ACL.Node.mk 0 0 none)]))
    ∧ ACL.Node.beq
        (ACL.Node.grant 0 ACL.SELECT ["db"]
          (ACL.Node.grant 0 ACL.SELECT ["db"]
            (ACL.Node.mk 1 1 (some [("db", ACL.Node.mk 0 0 none)]))).1).1
        (ACL.Node.grant 0 ACL.SELECT ["db"]
          (ACL.Node.mk 1 1 (some [("db", ACL.Node.mk 0 0 none)]))).1 = false :=
  ⟨rfl, rfl⟩

/-- C6 (amended): the "in particular" half of the claim holds whenever
the path's terminal node actually exists: if every requested bit is
already in the terminal node's `grants` mask, `grant` is a strict no-op
— it returns the tree unchanged together with `false` ("unchanged").
(Idempotence at the level of whole trees fails only when the first call
prunes or creates nodes along the path; see the counterexample.) -/
theorem grant_noop_when_already_granted : ∀ (path : List String) (n : ACL.Node) (pa add : Nat),
    n.existsPath path = true → ACL.andc add (n.grantsAt path) = 0 →
    ACL.Node.grant pa add path n = (n, false) := by
  intro path
  induction path with
  | nil =>
      intro n pa add _ hg
      rw [ACL.grant_nil]
      simp only [ACL.Node.grantsAt] at hg
      simp [ACL.Node.grantHere, hg]
  | cons name rest ih =>
      intro n pa add hex hg
      obtain ⟨a, g, cs⟩ := n
      simp only [ACL.Node.existsPath] at hex
      simp only [ACL.Node.grantsAt] at hg
      match cs with
      | none => simp [ACL.Node.find, ACL.Node.children] at hex
      | some l =>
          rw [show (ACL.Node.mk a g (some l)).find name
              = ACL.lookupList l name from rfl] at hex hg
          match hl : ACL.lookupList l name with
          | none =>
              rw [hl] at hex
              simp at hex
          | some c =>
              rw [hl] at hex hg
              dsimp only at hex hg
              rw [ACL.grant_cons]
              have he : ACL.ensureGet a name (some l) = (c, l) := by
                simp [ACL.ensureGet, hl]
              rw [he]
              dsimp only
              rw [ih c a add hex hg]
              simp [ACL.setEntry_lookup_self l name c hl]

/-- Witness for the amended C6 at a concrete tree, path and mask. -/
theorem grant_noop_when_already_granted_witness :
    (ACL.Node.mk 1 1 (some [("db", ACL.Node.mk 1 1 none)])).existsPath ["db"] = true ∧
    ACL.andc 1 ((ACL.Node.mk 1 1 (some [("db", ACL.Node.mk 1 1 none)])).grantsAt ["db"]) = 0 ∧
    ACL.Node.grant 0 1 ["db"] (ACL.Node.mk 1 1 (some [("db", ACL.Node.mk 1 1 none)])) =
      (ACL.Node.mk 1 1 (some [("db", ACL.Node.mk 1 1 none)]), false) :=
  ⟨rfl, by decide,
    grant_noop_when_already_granted ["db"]
      (ACL.Node.mk 1 1 (some [("db", ACL.Node.mk 1 1 none)])) 0 1 rfl (by decide)⟩

/-- C7: the registry tree is never well-formed because its construction
is broken: at the `TRUNCATE` node (AccessFlags.h line 368) the children
constructor is called with the four `detach_*` pointers that were
already moved into the `DETACH` node (line 361), so it dereferences
null child pointers.  (Independently, `truncate_table`/`truncate_view`
end up attached to no node, and 77 `next_flag++` leaf allocations
overflow `std::bitset<NUM_FLAGS = 64>`.)  The builder, transcribed from
the source with `unique_ptr` move semantics, aborts with exactly that
null-child error. -/
theorem registry_tree_construction_fails :
    Flags.makeFlagsToKeywordTree.run 0 =
      Except.error (Flags.BuildError.nullChild "TRUNCATE") :=
  rfl

namespace Flags

/-- A mask `and` a single bit is nothing or that bit. -/
theorem and_two_pow_cases (m i : Nat) : m &&& 2 ^ i = 0 ∨ m &&& 2 ^ i = 2 ^ i := by
  cases h : m.testBit i
  · left
    apply Nat.eq_of_testBit_eq
    intro j
    rw [Nat.testBit_and, Nat.zero_testBit]
    by_cases hj : j = i
    · subst hj
      simp [h]
    · rw [Nat.testBit_two_pow_of_ne (Ne.symm hj)]
      simp
  · right
    apply Nat.eq_of_testBit_eq
    intro j
    rw [Nat.testBit_and]
    by_cases hj : j = i
    · subst hj
      simp [h]
    · rw [Nat.testBit_two_pow_of_ne (Ne.symm hj)]
      simp

/-- `&&&` distributes over `|||`. -/
theorem nat_and_or_left (a b c : Nat) : a &&& (b ||| c) = (a &&& b) ||| (a &&& c) := by
  apply Nat.eq_of_testBit_eq
  intro j
  simp only [Nat.testBit_and, Nat.testBit_or]
  cases a.testBit j <;> cases b.testBit j <;> cases c.testBit j <;> rfl

/-- `orMasks` over an append. -/
theorem orMasks_append : ∀ l1 l2 : List PNode,
    orMasks (l1 ++ l2) = orMasks l1 ||| orMasks l2 := by
  intro l1 l2
  induction l1 with
  | nil => simp [orMasks]
  | cons c rest ih =>
      show c.flags ||| orMasks (rest ++ l2) = (c.flags ||| orMasks rest) ||| orMasks l2
      rw [ih, Nat.or_assoc]

/-- List version of `fkr_eq_map_emitted`. -/
theorem fkrList_eq_map_emittedList (flags : Nat) : ∀ l : List PNode,
    (∀ c ∈ l, flagsToKeywordsRec flags c = (emittedNodes flags c).map PNode.keyword) →
    flagsToKeywordsRecList flags l = (emittedList flags l).map PNode.keyword := by
  intro l
  induction l with
  | nil => intro _; rfl
  | cons c rest ih =>
      intro h
      rw [flagsToKeywordsRecList, emittedList, List.map_append,
        h c (by simp), ih (fun c hc => h c (by simp [hc]))]

/-- The keywords emitted by the walk are exactly the keywords of the
emitted nodes. -/
theorem fkr_eq_map_emitted (flags : Nat) : ∀ n : PNode,
    flagsToKeywordsRec flags n = (emittedNodes flags n).map PNode.keyword := by
  refine PNode.inductionOn _ ?_
  intro kw fl lvl cs ih
  rw [flagsToKeywordsRec, emittedNodes]
  by_cases hm0 : flags &&& fl = 0
  · rw [if_pos hm0, if_pos hm0]
    rfl
  · rw [if_neg hm0, if_neg hm0]
    by_cases hmf : flags &&& fl = fl
    · rw [if_pos hmf, if_pos hmf]
      rfl
    · rw [if_neg hmf, if_neg hmf]
      exact fkrList_eq_map_emittedList flags cs ih

/-- List version of `orMasks_emitted`. -/
theorem orMasks_emittedList (flags : Nat) : ∀ l : List PNode,
    (∀ c ∈ l, c.WF = true → orMasks (emittedNodes flags c) = flags &&& c.flags) →
    pnodesWF l = true →
    orMasks (emittedList flags l) = flags &&& orMasks l := by
  intro l
  induction l with
  | nil =>
      intro _ _
      simp [emittedList, orMasks]
  | cons c rest ih =>
      intro h hwf
      simp only [pnodesWF, Bool.and_eq_true] at hwf
      rw [emittedList, orMasks_append, h c (by simp) hwf.1,
        ih (fun c hc hw => h c (by simp [hc]) hw) hwf.2]
      show _ = flags &&& (c.flags ||| orMasks rest)
      rw [nat_and_or_left]

/-- On a well-formed tree the masks of the emitted nodes union to
exactly the requested bits that lie under the root's mask. -/
theorem orMasks_emitted (flags : Nat) : ∀ n : PNode, n.WF = true →
    orMasks (emittedNodes flags n) = flags &&& n.flags := by
  refine PNode.inductionOn _ ?_
  intro kw fl lvl cs ih hwf
  rw [emittedNodes]
  show _ = flags &&& fl
  by_cases hm0 : flags &&& fl = 0
  · rw [if_pos hm0, hm0]
    rfl
  · rw [if_neg hm0]
    by_cases hmf : flags &&& fl = fl
    · rw [if_pos hmf]
      show fl ||| 0 = flags &&& fl
      rw [Nat.or_zero, hmf]
    · rw [if_neg hmf]
      match cs, ih, hwf with
      | [], _, hwf =>
          simp only [PNode.WF, beq_iff_eq] at hwf
          rcases and_two_pow_cases flags (Nat.log2 fl) with h | h <;>
            rw [← hwf] at h
          · exact absurd h hm0
          · exact absurd h hmf
      | c :: rest, ih, hwf =>
          simp only [PNode.WF, Bool.and_eq_true, beq_iff_eq] at hwf
          rw [orMasks_emittedList flags (c :: rest)
            (fun d hd hw => ih d hd hw) hwf.2, hwf.1]

end Flags

/-- C8 counterexample: the walk does NOT produce a covering set for
every bit mask.  On a well-formed two-leaf tree holding bits 1 and 2,
requesting bit 4 (a flag outside the tree) emits nothing, so
`flagsToKeywords` falls back to `["USAGE"]`: the requested bits are
covered by no keyword, and `["USAGE"]` is returned for a non-empty
mask. -/
theorem flagsToKeywords_not_covering_counterexample :
    (Flags.PNode.mk "ALL" 3 0
      [Flags.PNode.mk "A" 1 3 [], Flags.PNode.mk "B" 2 3 []]).WF = true
    ∧ Flags.flagsToKeywords 4 (Flags.PNode.mk "ALL" 3 0
        [Flags.PNode.mk "A" 1 3 [], Flags.PNode.mk "B" 2 3 []]) = ["USAGE"]
    ∧ ¬(4 = 0)
    ∧ 4 &&& (Flags.PNode.mk "ALL" 3 0
        [Flags.PNode.mk "A" 1 3 [], Flags.PNode.mk "B" 2 3 []]).flags = 0 :=
  ⟨by simp [Flags.PNode.WF, Flags.pnodesWF, Flags.orMasks, Flags.PNode.flags, Nat.log2], rfl, by decide, rfl⟩

/-- C8 (amended): on a well-formed keyword tree (single-bit leaves,
parent masks the union of their children's) the greedy walk emits the
keywords of a set of tree nodes whose masks union to exactly
`flags & root mask` — an exact cover of every requested bit that lies
under the root; and for the empty mask the result is exactly
`["USAGE"]`.  The "minimal covering set for every bit mask" wording
fails for bits outside the root mask (see the counterexample). -/
theorem flagsToKeywords_exact_cover (t : Flags.PNode) (flags : Nat)
    (h : t.WF = true) :
    Flags.flagsToKeywordsRec flags t
        = (Flags.emittedNodes flags t).map Flags.PNode.keyword
    ∧ Flags.orMasks (Flags.emittedNodes flags t) = flags &&& t.flags
    ∧ Flags.flagsToKeywords 0 t = ["USAGE"] :=
  ⟨Flags.fkr_eq_map_emitted flags t, Flags.orMasks_emitted flags t h, by
    obtain ⟨kw, fl, lvl, cs⟩ := t
    simp [Flags.flagsToKeywords, Flags.flagsToKeywordsRec, Nat.zero_and]⟩

/-- Witness for the amended C8 on a concrete well-formed tree and
mask. -/
theorem flagsToKeywords_exact_cover_witness :
    (Flags.PNode.mk "ALL" 3 0
      [Flags.PNode.mk "A" 1 3 [], Flags.PNode.mk "B" 2 3 []]).WF = true
    ∧ (Flags.flagsToKeywordsRec 1 (Flags.PNode.mk "ALL" 3 0
          [Flags.PNode.mk "A" 1 3 [], Flags.PNode.mk "B" 2 3 []])
        = (Flags.emittedNodes 1 (Flags.PNode.mk "ALL" 3 0
            [Flags.PNode.mk "A" 1 3 [], Flags.PNode.mk "B" 2 3 []])).map
              Flags.PNode.keyword
      ∧ Flags.orMasks (Flags.emittedNodes 1 (Flags.PNode.mk "ALL" 3 0
          [Flags.PNode.mk "A" 1 3 [], Flags.PNode.mk "B" 2 3 []]))
        = 1 &&& (Flags.PNode.mk "ALL" 3 0
            [Flags.PNode.mk "A" 1 3 [], Flags.PNode.mk "B" 2 3 []]).flags
      ∧ Flags.flagsToKeywords 0 (Flags.PNode.mk "ALL" 3 0
          [Flags.PNode.mk "A" 1 3 [], Flags.PNode.mk "B" 2 3 []]) = ["USAGE"]) :=
  ⟨by simp [Flags.PNode.WF, Flags.pnodesWF, Flags.orMasks, Flags.PNode.flags, Nat.log2],
   flagsToKeywords_exact_cover (Flags.PNode.mk "ALL" 3 0
    [Flags.PNode.mk "A" 1 3 [], Flags.PNode.mk "B" 2 3 []]) 1
    (by simp [Flags.PNode.WF, Flags.pnodesWF, Flags.orMasks, Flags.PNode.flags, Nat.log2])⟩
